import Mathlib

/-!
# netjson: channel tokens inside JSON strings

A shallow embedding of `json/netjson.go`.  The file adds two adapters to a
fork of Go's `encoding/json`:

* `netjsonEncoder` asks a caller-supplied `NetjsonEncoder` for a byte payload
  and wraps its unpadded URL-safe base64 text between a quoted prefix and a
  quoted suffix (`"\//chan(` and `)\//"`);
* `netjsonDecoder` recognises the unquoted form `//chan(` ... `)//`, strips the
  delimiters, base64-decodes the interior and hands the payload to a
  caller-supplied `NetjsonDecoder`.

Conventions of the embedding.

* A Go `[]byte` is a `List Byte` with `Byte = Fin 256`; a slice's capacity is
  taken to be its length, so every slice expression is checked against `len`.
* Go's `int` is unbounded here (`Nat` for lengths and indices, `Int` where the
  source subtracts); no length in this file comes near the machine limits.
* Code that can stop abnormally runs in `Run = Except Abort`: an index or
  slice bound out of range, a method call through a nil interface, or the
  exhaustion of the fuel that bounds a loop of the model.
* `base64.RawURLEncoding` belongs to Go's standard library.  Its `Encode`,
  `Decode`, `EncodedLen` and `DecodedLen` are transcribed for the one encoding
  used here: URL alphabet, `NoPadding`, not strict.
-/

namespace Netjson

/-! ## Bytes, slices and abnormal termination -/

/-- A Go `byte`. -/
abbrev Byte := Fin 256

/-- Go's conversion `byte(n)` of an unsigned integer: truncation to 8 bits. -/
def byte (n : Nat) : Byte := ⟨n % 256, Nat.mod_lt n (by decide)⟩

/-- Ways in which a run of the code stops without returning. -/
inductive Abort where
  /-- A Go run-time panic: index or slice bound out of range. -/
  | indexOutOfRange
  /-- A Go run-time panic: method call through a nil interface value. -/
  | nilDereference
  /-- The model ran out of the fuel that bounds one of its loops. -/
  | outOfFuel
  deriving DecidableEq, Repr

/-- Computations that may stop abnormally. -/
abbrev Run := Except Abort

/-- Go's `make([]byte, n)`: `n` zero bytes. -/
def make (n : Nat) : List Byte := List.replicate n 0

/-- The slice expression `s[lo:hi]`; it panics unless `0 <= lo <= hi <= len(s)`. -/
def sliceOf (s : List Byte) (lo hi : Int) : Run (List Byte) :=
  if 0 ≤ lo ∧ lo ≤ hi ∧ hi ≤ (s.length : Int) then
    .ok ((s.take hi.toNat).drop lo.toNat)
  else
    .error .indexOutOfRange

/-- Running `f` on the sub-slice `s[lo:hi]`, which shares its storage with `s`:
whatever `f` stores in the window is stored in `s`. -/
def withSlice {α : Type} (s : List Byte) (lo hi : Int)
    (f : List Byte → Run (List Byte × α)) : Run (List Byte × α) := do
  let w ← sliceOf s lo hi
  let (w', a) ← f w
  pure (s.take lo.toNat ++ w' ++ s.drop hi.toNat, a)

/-- The assignment `dst[i] = b`; it panics unless `i < len(dst)`. -/
def put (dst : List Byte) (i : Nat) (b : Byte) : Run (List Byte) :=
  if i < dst.length then .ok (dst.set i b) else .error .indexOutOfRange

/-- Go's builtin `copy(dst, src)`: the first `min(len(dst), len(src))` bytes of
`src` overwrite the start of `dst`; the count copied is returned with the new
contents of `dst`. -/
def copy (dst src : List Byte) : List Byte × Nat :=
  let k := min dst.length src.length
  (src.take k ++ dst.drop k, k)

/-! ## `encoding/base64`, specialised to `RawURLEncoding` -/

namespace base64

/-- The constant `encodeURL`: the URL-safe alphabet, as bytes. -/
def encodeURL : List Byte :=
  "ABCDEFGHIJKLMNOPQRSTUVWXYZabcdefghijklmnopqrstuvwxyz0123456789-_".toList.map
    (fun c => byte c.toNat)

/-- The table lookup `enc.encode[i]`. -/
def encode (i : Nat) : Byte := encodeURL.getD i 0

/-- The table `enc.decodeMap`: `0xFF` everywhere, except that the `i`-th byte
of the alphabet maps to `i`. -/
def decodeMap (c : Byte) : Byte :=
  let i := encodeURL.indexOf c
  if i < encodeURL.length then byte i else 0xFF

/-- The method `EncodedLen` for an encoding without padding. -/
def EncodedLen (n : Nat) : Nat := (n * 8 + 5) / 6

/-- The method `DecodedLen` for an encoding without padding. -/
def DecodedLen (n : Nat) : Nat := n * 6 / 8

/-- The body of `Encode` from the point where `src` (here: what is left of it,
`src[si:]`) is consumed three bytes at a time, writing at `dst[di:]`; the last
one or two bytes form the short block, which an encoding without padding
writes as three or two characters. -/
def encodeFrom : List Byte → Nat → List Byte → Run (List Byte)
  | dst, di, a :: b :: c :: rest => do
      let val := a.val <<< 16 ||| b.val <<< 8 ||| c.val
      let dst ← put dst (di + 0) (encode (val >>> 18 &&& 0x3F))
      let dst ← put dst (di + 1) (encode (val >>> 12 &&& 0x3F))
      let dst ← put dst (di + 2) (encode (val >>> 6 &&& 0x3F))
      let dst ← put dst (di + 3) (encode (val &&& 0x3F))
      encodeFrom dst (di + 4) rest
  | dst, di, [a, b] => do
      let val := a.val <<< 16 ||| b.val <<< 8
      let dst ← put dst (di + 0) (encode (val >>> 18 &&& 0x3F))
      let dst ← put dst (di + 1) (encode (val >>> 12 &&& 0x3F))
      put dst (di + 2) (encode (val >>> 6 &&& 0x3F))
  | dst, di, [a] => do
      let val := a.val <<< 16
      let dst ← put dst (di + 0) (encode (val >>> 18 &&& 0x3F))
      put dst (di + 1) (encode (val >>> 12 &&& 0x3F))
  | dst, _, [] => pure dst

/-- The method `Encode(dst, src)`; the result is the new contents of `dst`. -/
def Encode (dst src : List Byte) : Run (List Byte) :=
  if src.length = 0 then pure dst else encodeFrom dst 0 src

/-- The method `EncodeToString(src)`: `Encode` into a fresh buffer of
`EncodedLen(len(src))` bytes. -/
def EncodeToString (src : List Byte) : Run (List Byte) :=
  Encode (make (EncodedLen src.length)) src

/-- How the `for j` loop of `decodeQuantum` ends. -/
inductive Scan where
  /-- One of the loop's `return si, 0, err` statements. -/
  | ret (nsi : Nat) (err : Option Int)
  /-- The loop is left, by `break` or because `j` reached `len(dbuf)`, with the
  quantum length `dlen` and the sextets `dbuf`. -/
  | conv (nsi : Nat) (dlen : Nat) (dbuf : List Nat)
  deriving DecidableEq, Repr

/-- The `for j := 0; j < len(dbuf); j++` loop of `decodeQuantum`, entered at
counter `j` with `rest = src[si:]`.  Without padding no input byte equals
`enc.padChar`, so a byte that is neither in the alphabet nor a line break
returns `CorruptInputError(si - 1)`. -/
def scan : List Byte → Nat → Nat → List Nat → Scan
  | [], si, j, dbuf =>
      if 4 ≤ j then .conv si 4 dbuf
      else if j = 0 then .ret si none
      else if j = 1 then .ret si (some ((si : Int) - (j : Int)))
      else .conv si j dbuf
  | c :: rest, si, j, dbuf =>
      if 4 ≤ j then .conv si 4 dbuf
      else
        let out := decodeMap c
        if out ≠ 0xFF then scan rest (si + 1) (j + 1) (dbuf.set j out.val)
        else if c = 10 ∨ c = 13 then scan rest (si + 1) j dbuf
        else .ret (si + 1) (some (((si + 1 : Nat) : Int) - 1))

/-- The method `decodeQuantum(dst, src, si)`: new `dst`, then `(nsi, n, err)`. -/
def decodeQuantum (dst src : List Byte) (si : Nat) :
    Run (List Byte × Nat × Nat × Option Int) :=
  match scan (src.drop si) si 0 [0, 0, 0, 0] with
  | .ret nsi err => pure (dst, nsi, 0, err)
  | .conv nsi dlen dbuf => do
      let val := dbuf.getD 0 0 <<< 18 ||| dbuf.getD 1 0 <<< 12 |||
        dbuf.getD 2 0 <<< 6 ||| dbuf.getD 3 0
      let dst ← if dlen = 4 then put dst 2 (byte (val >>> 0)) else pure dst
      let dst ← if dlen = 4 ∨ dlen = 3 then put dst 1 (byte (val >>> 8)) else pure dst
      let dst ← if dlen = 4 ∨ dlen = 3 ∨ dlen = 2 then put dst 0 (byte (val >>> 16))
        else pure dst
      pure (dst, nsi, dlen - 1, none)

/-- The loop `for si < len(src)` of `Decode`, each round one `decodeQuantum`
on `dst[n:]`.  Recent Go releases first take 8 or 4 alphabet bytes at a time;
those rounds store the same bytes below `n` as the quanta they replace.  The
first argument is fuel. -/
def decodeLoop : Nat → List Byte → List Byte → Nat → Nat →
    Run (List Byte × Nat × Option Int)
  | 0, _, _, _, _ => .error .outOfFuel
  | fuel + 1, dst, src, si, n =>
      if si < src.length then do
        let (dst, nsi, ninc, err) ← withSlice dst n dst.length
          (fun w => decodeQuantum w src si)
        match err with
        | some e => pure (dst, n + ninc, some e)
        | none => decodeLoop fuel dst src nsi (n + ninc)
      else pure (dst, n, none)

/-- The method `Decode(dst, src)`: new contents of `dst`, then `(n, err)`,
where `err` is the offset of a `CorruptInputError`. -/
def Decode (dst src : List Byte) : Run (List Byte × Nat × Option Int) :=
  if src.length = 0 then pure (dst, 0, none)
  else decodeLoop (src.length + 1) dst src 0 0

end base64

/-! ## The host package: errors, capabilities and state -/

/-- The errors that the two adapters report.  `T` stands for `reflect.Type`,
`E` for the Go `error` values that come from outside this file (the two
capabilities and `compact`). -/
inductive JsonError (T E : Type) where
  /-- The host's `UnsupportedTypeError{Type}`. -/
  | UnsupportedTypeError (type : T)
  /-- The host's `MarshalerError{Type, Err}`. -/
  | MarshalerError (type : T) (err : E)
  /-- The host's `UnmarshalTypeError{Value, Type, Offset}`. -/
  | UnmarshalTypeError (value : String) (type : T) (offset : Int)
  /-- The `base64.CorruptInputError` returned by `Decode`. -/
  | CorruptInputError (offset : Int)
  /-- An error returned by `NetjsonDecode`, passed on as it is. -/
  | capability (err : E)
  deriving DecidableEq, Repr

/-- The interface `NetjsonEncoder`: a payload, or an error. -/
structure NetjsonEncoder (V E : Type) where
  /-- The method `NetjsonEncode(reflect.Value) ([]byte, error)`. -/
  NetjsonEncode : V → Except E (List Byte)

/-- The interface `NetjsonDecoder`.  The method receives the address of the
destination, so it is given the destination's value and returns the value it
leaves there together with its `error` result. -/
structure NetjsonDecoder (V E : Type) where
  /-- The method `NetjsonDecode(reflect.Value, []byte) error`. -/
  NetjsonDecode : V → List Byte → V × Option E

/-- The fields of `encodeState` that `netjsonEncoder` uses: the embedded
`bytes.Buffer` and the optional Encoder capability. -/
structure encodeState (V E : Type) where
  /-- The contents of the output buffer. -/
  Buffer : List Byte
  /-- The field `netjsonEnc`; `none` is the nil interface. -/
  netjsonEnc : Option (NetjsonEncoder V E)

/-- The field of `encOpts` that `netjsonEncoder` uses. -/
structure encOpts where
  /-- Whether `compact` escapes the characters that are unsafe in HTML. -/
  escapeHTML : Bool
  deriving DecidableEq, Repr

/-- The fields of `decodeState` that `netjsonDecoder` uses. -/
structure decodeState (V T E : Type) where
  /-- The read offset in the input. -/
  off : Int
  /-- The errors recorded against this decode, oldest first. -/
  savedError : List (JsonError T E)
  /-- The field `netjsonDec`; `none` is the nil interface. -/
  netjsonDec : Option (NetjsonDecoder V E)

/-- Modelled from the spec: `decodeState.saveError`, a method of the host
decoder defined outside `netjson.go`.  The error is recorded against the
overall decode result and decoding goes on; the errors accumulate in call
order, so the one that wins is the head of the list. -/
def decodeState.saveError {V T E : Type} (d : decodeState V T E)
    (err : JsonError T E) : decodeState V T E :=
  { d with savedError := d.savedError ++ [err] }

/-- What one call of `netjsonEncoder` does. -/
structure EncodeRun (V T E : Type) where
  /-- The encode state after the call. -/
  e : encodeState V E
  /-- The error handed to `e.error`, which aborts the encode with it. -/
  err : Option (JsonError T E)
  /-- The arguments `(src, escape)` of the calls of `compact`, in order. -/
  compacted : List (List Byte × Bool)

/-- A call that `netjsonDecoder` makes out of the package. -/
inductive DecodeCall where
  /-- The call `base64.RawURLEncoding.Decode(buf, src)`. -/
  | base64Decode (src : List Byte)
  /-- The call `d.netjsonDec.NetjsonDecode(v.Addr(), payload)`. -/
  | NetjsonDecode (payload : List Byte)
  deriving DecidableEq, Repr

/-- What one call of `netjsonDecoder` does. -/
structure DecodeRun (V T E : Type) where
  /-- The decode state after the call. -/
  d : decodeState V T E
  /-- The value of the destination after the call. -/
  v : V
  /-- The calls made out of the package, in order. -/
  calls : List DecodeCall

/-! ## `netjson.go` -/

/-- The variable `netjsonChanQPrefix`, the 9 bytes `"\//chan(`. -/
def netjsonChanQPrefix : List Byte := [34, 92, 47, 47, 99, 104, 97, 110, 40]

/-- The variable `netjsonChanQSuffix`, the 5 bytes `)\//"`. -/
def netjsonChanQSuffix : List Byte := [41, 92, 47, 47, 34]

/-- The variable `netjsonChanPrefix`, the 7 bytes `//chan(`. -/
def netjsonChanPrefix : List Byte := [47, 47, 99, 104, 97, 110, 40]

/-- The variable `netjsonChanSuffix`, the 3 bytes `)//`. -/
def netjsonChanSuffix : List Byte := [41, 47, 47]

/-- Lines 41 to 43 of `netjsonEncoder`, run on a slice `s` and the length `n`
computed for it: the two `copy` calls and the `Encode` into the window between
them.  The result is the new contents of `s` with the counts that the two
`copy` calls return (the source drops them). -/
def netjsonEncoder.fill (s : List Byte) (n : Nat) (buf : List Byte) :
    Run (List Byte × Nat × Nat) := do
  let (s, k₁) := copy s netjsonChanQPrefix
  let (s, k₂) ← withSlice s ((n : Int) - netjsonChanQSuffix.length) s.length
    (fun w => pure (copy w netjsonChanQSuffix))
  let (s, _) ← withSlice s netjsonChanQPrefix.length
    ((n : Int) - netjsonChanQSuffix.length)
    (fun w => do
      let w' ← base64.Encode w buf
      pure (w', ()))
  pure (s, k₁, k₂)

/-- The function `netjsonEncoder(e, v, opts)`.  `typeOf` is `reflect.Value.Type`
and `compact` is the host's `compact(dst, src, escape)`, given the contents of
the buffer and returning its new contents with the `error` result. -/
def netjsonEncoder {V T E : Type} (typeOf : V → T)
    (compact : List Byte → List Byte → Bool → List Byte × Option E)
    (e : encodeState V E) (v : V) (opts : encOpts) : Run (EncodeRun V T E) :=
  match e.netjsonEnc with
  | none => pure { e := e, err := some (.UnsupportedTypeError (typeOf v)), compacted := [] }
  | some enc =>
    match enc.NetjsonEncode v with
    | .error err =>
        pure { e := e, err := some (.MarshalerError (typeOf v) err), compacted := [] }
    | .ok buf => do
        let n := base64.EncodedLen buf.length +
          netjsonChanQPrefix.length + netjsonChanQSuffix.length
        let s := make n
        let (s, _) ← netjsonEncoder.fill s n buf
        let (buffer, err) := compact e.Buffer s opts.escapeHTML
        pure { e := { e with Buffer := buffer },
               err := err.map (JsonError.MarshalerError (typeOf v)),
               compacted := [(s, opts.escapeHTML)] }

/-- The function `netjsonIsEncoded(d, s)`; `&&` evaluates its right operand
only when the left one is true. -/
def netjsonIsEncoded {V T E : Type} (d : decodeState V T E) (s : List Byte) : Run Bool :=
  if d.netjsonDec.isNone then pure false
  else if ¬ (s.length ≥ netjsonChanPrefix.length) then pure false
  else do
    let head ← sliceOf s 0 netjsonChanPrefix.length
    if head ≠ netjsonChanPrefix then pure false
    else do
      let tail ← sliceOf s ((s.length : Int) - netjsonChanSuffix.length) s.length
      pure (decide (tail = netjsonChanSuffix))

/-- The function `netjsonDecoder(d, s, v)`; `typeOf` is `reflect.Value.Type`. -/
def netjsonDecoder {V T E : Type} (typeOf : V → T)
    (d : decodeState V T E) (s : List Byte) (v : V) : Run (DecodeRun V T E) := do
  let isEncoded ← netjsonIsEncoded d s
  if !isEncoded then
    pure { d := d.saveError (.UnmarshalTypeError "string" (typeOf v) d.off),
           v := v, calls := [] }
  else
    let s ← sliceOf s netjsonChanPrefix.length
      ((s.length : Int) - netjsonChanSuffix.length)
    let buf := make (base64.DecodedLen s.length)
    let (buf, n, err) ← base64.Decode buf s
    match err with
    | some off =>
        pure { d := d.saveError (.CorruptInputError off), v := v,
               calls := [.base64Decode s] }
    | none =>
        let payload ← sliceOf buf 0 n
        match d.netjsonDec with
        | none => throw .nilDereference
        | some dec =>
            let (v', err) := dec.NetjsonDecode v payload
            pure { d := match err with
                        | some e => d.saveError (.capability e)
                        | none => d,
                   v := v',
                   calls := [.base64Decode s, .NetjsonDecode payload] }

/-- The JSON string value of a token as the host decoder hands it on: the
surrounding quotes are removed and each escape `\/` stands for `/`. -/
def unescapeSolidus : List Byte → List Byte
  | 92 :: 47 :: rest => 47 :: unescapeSolidus rest
  | c :: rest => c :: unescapeSolidus rest
  | [] => []

/-- The token `t` without its first and last byte (the quotes), unescaped. -/
def unquoteToken (t : List Byte) : List Byte := unescapeSolidus (t.drop 1).dropLast

/-- The interior of a candidate token: `s` without its first 7 and last 3
bytes, the slice `s[7 : len(s)-3]` that `netjsonDecoder` decodes. -/
def interior (s : List Byte) : List Byte := (s.take (s.length - 3)).drop 7

/-! ## Closed forms, used to state and prove the claims -/

namespace base64

/-- The sextets of a payload: three bytes give four, two give three, one gives two. -/
def groups : List Byte → List Nat
  | a :: b :: c :: rest =>
      a.val / 4 :: (a.val % 4 * 16 + b.val / 16) :: (b.val % 16 * 4 + c.val / 64) ::
        c.val % 64 :: groups rest
  | [a, b] => [a.val / 4, a.val % 4 * 16 + b.val / 16, b.val % 16 * 4]
  | [a] => [a.val / 4, a.val % 4 * 16]
  | [] => []

/-- The unpadded URL-safe base64 text of a payload, in arithmetic form. -/
def text : List Byte → List Byte
  | a :: b :: c :: rest =>
      encode (a.val / 4) :: encode (a.val % 4 * 16 + b.val / 16) ::
        encode (b.val % 16 * 4 + c.val / 64) :: encode (c.val % 64) :: text rest
  | [a, b] =>
      [encode (a.val / 4), encode (a.val % 4 * 16 + b.val / 16), encode (b.val % 16 * 4)]
  | [a] => [encode (a.val / 4), encode (a.val % 4 * 16)]
  | [] => []

/-- Whether `c` belongs to the alphabet, as `Decode` tests it. -/
def valid (c : Byte) : Bool := decodeMap c != 0xFF

/-- The assignments `dbuf[j] = decodeMap[c]` for the bytes `cs`, from index `j` on. -/
def storeAll : List Nat → Nat → List Byte → List Nat
  | dbuf, _, [] => dbuf
  | dbuf, j, c :: cs => storeAll (dbuf.set j (decodeMap c).val) (j + 1) cs

/-- The bytes that groups of four sextets stand for; a last group of three
gives two bytes, one of two gives one byte. -/
def bytesOf : List Nat → List Byte
  | d0 :: d1 :: d2 :: d3 :: rest =>
      byte (d0 * 4 + d1 / 16) :: byte (d1 % 16 * 16 + d2 / 4) :: byte (d2 % 4 * 64 + d3) ::
        bytesOf rest
  | [d0, d1, d2] => [byte (d0 * 4 + d1 / 16), byte (d1 % 16 * 16 + d2 / 4)]
  | [d0, d1] => [byte (d0 * 4 + d1 / 16)]
  | [_] => []
  | [] => []

/-- The sextets of the alphabet bytes of `x`, in order. -/
def sextets (x : List Byte) : List Nat := (x.filter valid).map (fun c => (decodeMap c).val)

/-- The payload that the text `x` stands for, all other bytes skipped. -/
def decoded (x : List Byte) : List Byte := bytesOf (sextets x)

/-- The inputs on which `Decode` reports `CorruptInputError`: a byte that is
neither in the alphabet nor a line break, or one alphabet byte left over after
the groups of four. -/
def corrupt (x : List Byte) : Prop :=
  (∃ c ∈ x, valid c = false ∧ c ≠ 10 ∧ c ≠ 13) ∨ (x.filter valid).length % 4 = 1

end base64

/-- Membership in the URL-safe alphabet `A-Z a-z 0-9 - _`. -/
def isAlphabet (c : Byte) : Prop :=
  (65 ≤ c.val ∧ c.val ≤ 90) ∨ (97 ≤ c.val ∧ c.val ≤ 122) ∨ (48 ≤ c.val ∧ c.val ≤ 57) ∨
    c.val = 45 ∨ c.val = 95

instance (c : Byte) : Decidable (isAlphabet c) := by
  unfold isAlphabet
  infer_instance

/-! ## Sample capabilities, used to run the code on concrete inputs -/

/-- An Encoder whose payload is the value itself; values of more than four
bytes are refused with their length as the error. -/
def sampleEncoder : NetjsonEncoder (List Byte) Nat :=
  ⟨fun v => if v.length ≤ 4 then .ok v else .error v.length⟩

/-- A Decoder that stores the payload in the destination; payloads of more
than four bytes are stored and reported with their length as the error. -/
def sampleDecoder : NetjsonDecoder (List Byte) Nat :=
  ⟨fun _ p => (p, if p.length ≤ 4 then none else some p.length)⟩

/-- A `compact` that appends the token as it is and never fails. -/
def sampleCompact (dst src : List Byte) (_ : Bool) : List Byte × Option Nat :=
  (dst ++ src, none)

/-- The type of a sample value: its length. -/
def sampleType (v : List Byte) : Nat := v.length

/-- A decode state at offset 5, with no error saved and the sample Decoder. -/
def sampleDecodeState : decodeState (List Byte) Nat Nat :=
  { off := 5, savedError := [], netjsonDec := some sampleDecoder }

/-- A decode state at offset 5, with no error saved and no Decoder. -/
def bareDecodeState : decodeState (List Byte) Nat Nat :=
  { off := 5, savedError := [], netjsonDec := none }

/-- An encode state holding the two bytes `[1` and the sample Encoder. -/
def sampleEncodeState : encodeState (List Byte) Nat :=
  { Buffer := [91, 49], netjsonEnc := some sampleEncoder }

/-- An encode state holding the two bytes `[1` and no Encoder. -/
def bareEncodeState : encodeState (List Byte) Nat :=
  { Buffer := [91, 49], netjsonEnc := none }

/-- A Decoder that refuses the empty payload with the error `0` and leaves the
destination alone; any other payload is stored in the destination. -/
def strictDecoder : NetjsonDecoder (List Byte) Nat :=
  ⟨fun dest p => if p.length = 0 then (dest, some 0) else (p, none)⟩

/-- A decode state at offset 5, with no error saved and the strict Decoder. -/
def strictDecodeState : decodeState (List Byte) Nat Nat :=
  { off := 5, savedError := [], netjsonDec := some strictDecoder }

/-! ## Slices and detection -/

theorem sliceOf_ok (s : List Byte) (lo hi : Nat) (h₁ : lo ≤ hi) (h₂ : hi ≤ s.length) :
    sliceOf s (lo : Int) (hi : Int) = .ok ((s.take hi).drop lo) := by
  unfold sliceOf
  rw [if_pos]
  · simp
  · omega

theorem netjsonIsEncoded_eq {V T E : Type} (d : decodeState V T E) (s : List Byte) :
    netjsonIsEncoded d s = .ok (decide (d.netjsonDec.isSome = true ∧ 7 ≤ s.length ∧
      s.take 7 = netjsonChanPrefix ∧ s.drop (s.length - 3) = netjsonChanSuffix)) := by
  unfold netjsonIsEncoded
  cases hd : d.netjsonDec with
  | none => simp [pure, Except.pure]
  | some dec =>
    by_cases hlen : 7 ≤ s.length
    · have h1 : sliceOf s 0 ((netjsonChanPrefix.length : Nat) : Int) = .ok (s.take 7) := by
        have := sliceOf_ok s 0 7 (by omega) hlen
        simpa [netjsonChanPrefix] using this
      have h2 : sliceOf s ((s.length : Int) - (netjsonChanSuffix.length : Nat)) s.length
          = .ok (s.drop (s.length - 3)) := by
        have := sliceOf_ok s (s.length - 3) s.length (by omega) (Nat.le_refl _)
        have e : (((s.length - 3 : Nat)) : Int) = (s.length : Int) - (3 : Nat) := by omega
        rw [e] at this
        simpa [netjsonChanSuffix] using this
      have hl : netjsonChanPrefix.length = 7 := rfl
      rw [h1, h2]
      by_cases hp : s.take 7 = netjsonChanPrefix
      · simp [hp, hlen, hl, bind, Except.bind, pure, Except.pure]
      · simp [hp, hlen, hl, bind, Except.bind, pure, Except.pure]
    · simp [hlen, show netjsonChanPrefix.length = 7 from rfl, pure, Except.pure]

theorem accepted_length (s : List Byte) (h7 : 7 ≤ s.length)
    (hp : s.take 7 = netjsonChanPrefix)
    (hs : s.drop (s.length - 3) = netjsonChanSuffix) : 10 ≤ s.length := by
  by_contra hlt
  have hsplit := (List.take_append_drop 7 s).symm
  rw [hp] at hsplit
  generalize s.drop 7 = r at hsplit
  subst hsplit
  rcases r with _ | ⟨x, _ | ⟨y, _ | ⟨z, r⟩⟩⟩
  · simp [netjsonChanPrefix, netjsonChanSuffix] at hs
  · simp [netjsonChanPrefix, netjsonChanSuffix] at hs
  · simp [netjsonChanPrefix, netjsonChanSuffix] at hs
  · simp [netjsonChanPrefix] at hlt

theorem netjsonIsEncoded_delimited {V T E : Type} (d : decodeState V T E) (s : List Byte)
    (h : netjsonIsEncoded d s = .ok true) :
    netjsonChanPrefix <+: s ∧ netjsonChanSuffix <:+ s := by
  rw [netjsonIsEncoded_eq] at h
  simp only [Except.ok.injEq, decide_eq_true_eq] at h
  obtain ⟨_, _, hp, hs⟩ := h
  exact ⟨hp ▸ List.take_prefix 7 s, hs ▸ List.drop_suffix _ s⟩

/-! ## The two paths of `netjsonDecoder` -/

theorem netjsonDecoder_reject {V T E : Type} (typeOf : V → T) (d : decodeState V T E)
    (s : List Byte) (v : V) (h : netjsonIsEncoded d s = .ok false) :
    netjsonDecoder typeOf d s v =
      .ok { d := d.saveError (.UnmarshalTypeError "string" (typeOf v) d.off),
            v := v, calls := [] } := by
  simp [netjsonDecoder, h, bind, Except.bind, pure, Except.pure]

theorem netjsonDecoder_accept {V T E : Type} (typeOf : V → T) (d : decodeState V T E)
    (s : List Byte) (v : V) (h : netjsonIsEncoded d s = .ok true) :
    ∃ dec, d.netjsonDec = some dec ∧ 10 ≤ s.length ∧
    netjsonDecoder typeOf d s v =
      (match base64.Decode (make (base64.DecodedLen (interior s).length)) (interior s) with
       | .error a => .error a
       | .ok (_, _, some off) =>
           .ok { d := d.saveError (.CorruptInputError off), v := v,
                 calls := [.base64Decode (interior s)] }
       | .ok (buf, n, none) =>
           match sliceOf buf 0 n with
           | .error a => .error a
           | .ok payload =>
             .ok { d := match (dec.NetjsonDecode v payload).2 with
                       | some e => d.saveError (.capability e)
                       | none => d,
                   v := (dec.NetjsonDecode v payload).1,
                   calls := [.base64Decode (interior s), .NetjsonDecode payload] }) := by
  have hacc := h
  rw [netjsonIsEncoded_eq] at hacc
  simp only [Except.ok.injEq, decide_eq_true_eq] at hacc
  obtain ⟨hdec, h7, hp, hs⟩ := hacc
  have h10 := accepted_length s h7 hp hs
  obtain ⟨dec, hd⟩ := Option.isSome_iff_exists.mp hdec
  refine ⟨dec, hd, h10, ?_⟩
  have hsl : sliceOf s ((netjsonChanPrefix.length : Nat) : Int)
      ((s.length : Int) - (netjsonChanSuffix.length : Nat)) = .ok (interior s) := by
    have := sliceOf_ok s 7 (s.length - 3) (by omega) (by omega)
    have e : (((s.length - 3 : Nat)) : Int) = (s.length : Int) - (3 : Nat) := by omega
    rw [e] at this
    simpa [netjsonChanSuffix, netjsonChanPrefix, interior] using this
  unfold netjsonDecoder
  rw [h]
  simp only [bind, Except.bind, hsl, pure, Except.pure, Bool.not_true, Bool.false_eq_true,
    if_false]
  cases hD : base64.Decode (make (base64.DecodedLen (interior s).length)) (interior s) with
  | error a => rfl
  | ok r =>
    obtain ⟨buf, n, err⟩ := r
    cases err with
    | some off => rfl
    | none =>
      simp only []
      cases hS : sliceOf buf 0 n with
      | error a => simp [hS]
      | ok payload => simp [hS, hd, throw, throwThe, MonadExceptOf.throw]

theorem withSlice_tail {α : Type} (dst : List Byte) (n : Nat) (hn : n ≤ dst.length)
    (f : List Byte → Run (List Byte × α)) (w' : List Byte) (a : α)
    (hf : f (dst.drop n) = .ok (w', a)) :
    withSlice dst (n : Int) (dst.length : Int) f = .ok (dst.take n ++ w', a) := by
  unfold withSlice
  rw [sliceOf_ok dst n dst.length hn (Nat.le_refl _)]
  simp [bind, Except.bind, hf, pure, Except.pure]

/-! ## Bit packing and `Encode` -/

namespace base64

theorem and_63 (x : Nat) : x &&& 0x3F = x % 64 := by
  have := Nat.and_pow_two_sub_one_eq_mod x 6
  simpa using this

theorem or_shift (a b i : Nat) (h : b < 2 ^ i) : a <<< i ||| b = a * 2 ^ i + b := by
  rw [Nat.shiftLeft_eq, Nat.mul_comm, ← Nat.mul_add_lt_is_or h]

theorem pack3 (a b c : Nat) (hb : b < 256) (hc : c < 256) :
    a <<< 16 ||| b <<< 8 ||| c = a * 65536 + b * 256 + c := by
  have h1 : a <<< 16 ||| b <<< 8 = (a * 256 + b) <<< 8 := by
    rw [or_shift a (b <<< 8) 16 (by rw [Nat.shiftLeft_eq]; omega)]
    simp only [Nat.shiftLeft_eq]
    omega
  rw [h1, or_shift _ c 8 (by omega)]
  omega

theorem pack4 (d0 d1 d2 d3 : Nat) (h1 : d1 < 64) (h2 : d2 < 64) (h3 : d3 < 64) :
    d0 <<< 18 ||| d1 <<< 12 ||| d2 <<< 6 ||| d3 =
      d0 * 262144 + d1 * 4096 + d2 * 64 + d3 := by
  have e1 : d0 <<< 18 ||| d1 <<< 12 = (d0 * 64 + d1) <<< 12 := by
    rw [or_shift d0 (d1 <<< 12) 18 (by rw [Nat.shiftLeft_eq]; omega)]
    simp only [Nat.shiftLeft_eq]
    omega
  have e2 : (d0 * 64 + d1) <<< 12 ||| d2 <<< 6 = ((d0 * 64 + d1) * 64 + d2) <<< 6 := by
    rw [or_shift _ (d2 <<< 6) 12 (by rw [Nat.shiftLeft_eq]; omega)]
    simp only [Nat.shiftLeft_eq]
    omega
  rw [e1, e2, or_shift _ d3 6 (by omega)]
  omega

theorem text_length : ∀ p : List Byte, (text p).length = EncodedLen p.length
  | a :: b :: c :: rest => by
      simp only [text, List.length_cons, text_length rest, EncodedLen]
      omega
  | [a, b] => by simp [text, EncodedLen]
  | [a] => by simp [text, EncodedLen]
  | [] => by simp [text, EncodedLen]

theorem put_0 (pre t : List Byte) (x b : Byte) :
    put (pre ++ x :: t) (pre.length + 0) b = .ok (pre ++ b :: t) := by
  simp [put]

theorem put_1 (pre t : List Byte) (x0 x b : Byte) :
    put (pre ++ x0 :: x :: t) (pre.length + 1) b = .ok (pre ++ x0 :: b :: t) := by
  simp [put, List.set_append]

theorem put_2 (pre t : List Byte) (x0 x1 x b : Byte) :
    put (pre ++ x0 :: x1 :: x :: t) (pre.length + 2) b = .ok (pre ++ x0 :: x1 :: b :: t) := by
  simp [put, List.set_append]

theorem put_3 (pre t : List Byte) (x0 x1 x2 x b : Byte) :
    put (pre ++ x0 :: x1 :: x2 :: x :: t) (pre.length + 3) b =
      .ok (pre ++ x0 :: x1 :: x2 :: b :: t) := by
  simp [put, List.set_append]

theorem sextets3 (a b c : Byte) :
    let val := a.val <<< 16 ||| b.val <<< 8 ||| c.val
    val >>> 18 &&& 0x3F = a.val / 4 ∧ val >>> 12 &&& 0x3F = a.val % 4 * 16 + b.val / 16 ∧
    val >>> 6 &&& 0x3F = b.val % 16 * 4 + c.val / 64 ∧ val &&& 0x3F = c.val % 64 := by
  have ha := a.isLt
  have hb := b.isLt
  have hc := c.isLt
  simp only [pack3 a.val b.val c.val hb hc, and_63, Nat.shiftRight_eq_div_pow]
  omega

theorem sextets2 (a b : Byte) :
    let val := a.val <<< 16 ||| b.val <<< 8
    val >>> 18 &&& 0x3F = a.val / 4 ∧ val >>> 12 &&& 0x3F = a.val % 4 * 16 + b.val / 16 ∧
    val >>> 6 &&& 0x3F = b.val % 16 * 4 := by
  have ha := a.isLt
  have hb := b.isLt
  have h := pack3 a.val b.val 0 hb (by omega)
  simp only [Nat.or_zero] at h
  simp only [h, and_63, Nat.shiftRight_eq_div_pow]
  omega

theorem sextets1 (a : Byte) :
    let val := a.val <<< 16
    val >>> 18 &&& 0x3F = a.val / 4 ∧ val >>> 12 &&& 0x3F = a.val % 4 * 16 := by
  have ha := a.isLt
  simp only [and_63, Nat.shiftRight_eq_div_pow, Nat.shiftLeft_eq]
  omega

theorem encodeFrom_ok : ∀ (src pre mid post : List Byte),
    mid.length = (text src).length →
    encodeFrom (pre ++ mid ++ post) pre.length src = .ok (pre ++ text src ++ post)
  | a :: b :: c :: rest, pre, mid, post, h => by
      obtain ⟨k0, k1, k2, k3⟩ := sextets3 a b c
      rcases mid with _ | ⟨x0, _ | ⟨x1, _ | ⟨x2, _ | ⟨x3, mid⟩⟩⟩⟩ <;>
        simp only [text, List.length_cons, List.length_nil] at h <;> try omega
      have ih := encodeFrom_ok rest
        (pre ++ [encode (a.val / 4), encode (a.val % 4 * 16 + b.val / 16),
          encode (b.val % 16 * 4 + c.val / 64), encode (c.val % 64)]) mid post (by omega)
      simp only [List.length_append, List.length_cons, List.length_nil] at ih
      simp only [encodeFrom, k0, k1, k2, k3, List.append_assoc, List.cons_append, put_0, put_1,
        put_2, put_3, bind, Except.bind, text]
      simpa using ih
  | [a, b], pre, mid, post, h => by
      obtain ⟨k0, k1, k2⟩ := sextets2 a b
      rcases mid with _ | ⟨x0, _ | ⟨x1, _ | ⟨x2, _ | ⟨x3, mid⟩⟩⟩⟩ <;>
        simp only [text, List.length_cons, List.length_nil] at h <;> try omega
      simp only [encodeFrom, k0, k1, k2, List.append_assoc, List.cons_append, put_0, put_1,
        put_2, bind, Except.bind, text, List.nil_append]
  | [a], pre, mid, post, h => by
      obtain ⟨k0, k1⟩ := sextets1 a
      rcases mid with _ | ⟨x0, _ | ⟨x1, _ | ⟨x2, mid⟩⟩⟩ <;>
        simp only [text, List.length_cons, List.length_nil] at h <;> try omega
      simp only [encodeFrom, k0, k1, List.append_assoc, List.cons_append, put_0, put_1,
        bind, Except.bind, text, List.nil_append]
  | [], pre, mid, post, h => by
      rcases mid with _ | ⟨x0, mid⟩
      · simp [encodeFrom, text, pure, Except.pure]
      · simp [text] at h

theorem Encode_ok (src mid : List Byte) (h : mid.length = EncodedLen src.length) :
    Encode mid src = .ok (text src) := by
  have := encodeFrom_ok src [] mid [] (by rw [text_length]; exact h)
  unfold Encode
  split
  · rename_i h0
    have : src = [] := List.length_eq_zero.mp h0
    subst this
    have : mid = [] := List.length_eq_zero.mp (by simpa [EncodedLen] using h)
    subst this
    simp [text, pure, Except.pure]
  · simpa using this

/-! ## One quantum of `Decode` -/

theorem scan_ret : ∀ (rest : List Byte) (si j : Nat) (dbuf : List Nat) (nsi : Nat)
    (err : Option Int), scan rest si j dbuf = .ret nsi err →
    (err = none → j = 0 ∧ nsi = si + rest.length ∧ ∀ c ∈ rest, valid c = false ∧ (c = 10 ∨ c = 13)) ∧
    (err ≠ none → (∃ c ∈ rest, valid c = false ∧ c ≠ 10 ∧ c ≠ 13) ∨
      j + (rest.filter valid).length = 1)
  | [], si, j, dbuf, nsi, err, h => by
      unfold scan at h
      split at h
      · cases h
      · split at h
        · cases h; simp_all
        · split at h
          · cases h; simp_all
          · cases h
  | c :: rest, si, j, dbuf, nsi, err, h => by
      unfold scan at h
      split at h
      · cases h
      · simp only at h
        split at h
        · rename_i hv
          have hv' : valid c = true := by simpa [valid] using hv
          obtain ⟨h1, h2⟩ := scan_ret rest _ _ _ _ _ h
          refine ⟨fun he => ?_, fun he => ?_⟩
          · have := (h1 he).1
            omega
          · rcases h2 he with ⟨x, hx, hx'⟩ | hc
            · exact Or.inl ⟨x, List.mem_cons_of_mem _ hx, hx'⟩
            · right
              simp only [List.filter_cons, hv', if_true, List.length_cons]
              omega
        · rename_i hv
          have hv' : valid c = false := by simpa [valid] using hv
          split at h
          · rename_i hnl
            obtain ⟨h1, h2⟩ := scan_ret rest _ _ _ _ _ h
            refine ⟨fun he => ?_, fun he => ?_⟩
            · obtain ⟨a, b, hall⟩ := h1 he
              refine ⟨a, by simp only [List.length_cons]; omega, ?_⟩
              intro x hx
              rcases List.mem_cons.mp hx with rfl | hx
              · exact ⟨hv', hnl⟩
              · exact hall x hx
            · rcases h2 he with ⟨x, hx, hx'⟩ | hc
              · exact Or.inl ⟨x, List.mem_cons_of_mem _ hx, hx'⟩
              · right
                simpa [List.filter_cons, hv'] using hc
          · rename_i hnl
            cases h
            refine ⟨fun he => (by cases he), fun _ => Or.inl ⟨c, List.mem_cons_self _ _, hv', ?_, ?_⟩⟩
            · intro h10; exact hnl (Or.inl h10)
            · intro h13; exact hnl (Or.inr h13)

theorem scan_conv : ∀ (rest : List Byte) (si j : Nat) (dbuf : List Nat) (nsi dlen : Nat)
    (dbuf' : List Nat), scan rest si j dbuf = .conv nsi dlen dbuf' → j ≤ 4 →
    ∃ k, k ≤ rest.length ∧ nsi = si + k ∧
      (∀ c ∈ rest.take k, valid c = true ∨ c = 10 ∨ c = 13) ∧
      dlen = j + ((rest.take k).filter valid).length ∧ 2 ≤ dlen ∧ dlen ≤ 4 ∧
      (dlen < 4 → k = rest.length) ∧
      dbuf' = storeAll dbuf j ((rest.take k).filter valid)
  | [], si, j, dbuf, nsi, dlen, dbuf', h, hj => by
      unfold scan at h
      refine ⟨0, ?_⟩
      split at h
      · cases h; simp [storeAll]; omega
      · split at h
        · cases h
        · split at h
          · cases h
          · cases h; simp [storeAll]; omega
  | c :: rest, si, j, dbuf, nsi, dlen, dbuf', h, hj => by
      unfold scan at h
      split at h
      · cases h
        refine ⟨0, ?_⟩
        simp [storeAll]; omega
      · simp only at h
        split at h
        · rename_i hv
          have hv' : valid c = true := by simpa [valid] using hv
          obtain ⟨k, hk, hn, hall, hd, h2, h4, hlt, hb⟩ := scan_conv rest _ _ _ _ _ _ h (by omega)
          refine ⟨k + 1, by simp only [List.length_cons]; omega, by omega, ?_, ?_, h2, h4, ?_, ?_⟩
          · intro x hx
            simp only [List.take_succ_cons, List.mem_cons] at hx
            rcases hx with rfl | hx
            · exact Or.inl hv'
            · exact hall x hx
          · simp only [List.take_succ_cons, List.filter_cons, hv', if_true, List.length_cons]
            omega
          · intro h'
            simp only [List.length_cons]
            have := hlt h'
            omega
          · simp only [List.take_succ_cons, List.filter_cons, hv', if_true, storeAll]
            exact hb
        · rename_i hv
          have hv' : valid c = false := by simpa [valid] using hv
          split at h
          · rename_i hnl
            obtain ⟨k, hk, hn, hall, hd, h2, h4, hlt, hb⟩ := scan_conv rest _ _ _ _ _ _ h hj
            refine ⟨k + 1, by simp only [List.length_cons]; omega, by omega, ?_, ?_, h2, h4, ?_, ?_⟩
            · intro x hx
              simp only [List.take_succ_cons, List.mem_cons] at hx
              rcases hx with rfl | hx
              · exact Or.inr hnl
              · exact hall x hx
            · simp only [List.take_succ_cons, List.filter_cons, hv']
              simpa using hd
            · intro h'
              simp only [List.length_cons]
              have := hlt h'
              omega
            · simp only [List.take_succ_cons, List.filter_cons, hv']
              simpa using hb
          · cases h

theorem decodeMap_lt (c : Byte) (h : valid c = true) : (decodeMap c).val < 64 := by
  have hl : encodeURL.length = 64 := by decide
  unfold valid decodeMap at h
  unfold decodeMap
  simp only [hl] at h ⊢
  split
  · rename_i hi
    simp only [byte]
    omega
  · rename_i hi
    simp [hi] at h

theorem byte_congr (a b : Nat) (h : a % 256 = b % 256) : byte a = byte b := by
  unfold byte
  exact Fin.ext h

theorem unpack4 (d0 d1 d2 d3 : Nat) (h1 : d1 < 64) (h2 : d2 < 64) (h3 : d3 < 64) :
    let val := d0 <<< 18 ||| d1 <<< 12 ||| d2 <<< 6 ||| d3
    byte (val >>> 16) = byte (d0 * 4 + d1 / 16) ∧
    byte (val >>> 8) = byte (d1 % 16 * 16 + d2 / 4) ∧
    byte (val >>> 0) = byte (d2 % 4 * 64 + d3) := by
  simp only [pack4 d0 d1 d2 d3 h1 h2 h3, Nat.shiftRight_eq_div_pow]
  refine ⟨byte_congr _ _ ?_, byte_congr _ _ ?_, byte_congr _ _ ?_⟩ <;> omega

theorem DecodedLen_mono {a b : Nat} (h : a ≤ b) : DecodedLen a ≤ DecodedLen b := by
  unfold DecodedLen
  omega

theorem filter_take_length_le (rest : List Byte) (k : Nat) (hk : k ≤ rest.length) :
    ((rest.take k).filter valid).length ≤ k := by
  have := List.length_filter_le valid (rest.take k)
  simp only [List.length_take] at this
  omega

theorem decodeQuantum_spec (w src : List Byte) (si : Nat) (hsi : si < src.length)
    (hcap : DecodedLen (src.length - si) ≤ w.length) :
    ∃ w' nsi ninc err, decodeQuantum w src si = .ok (w', nsi, ninc, err) ∧
      w'.length = w.length ∧
      (err ≠ none → ninc = 0 ∧ w' = w ∧ corrupt (src.drop si)) ∧
      (err = none → ∃ k, nsi = si + k ∧ 0 < k ∧ k ≤ src.length - si ∧
        (∀ c ∈ (src.drop si).take k, valid c = true ∨ c = 10 ∨ c = 13) ∧
        ((((src.drop si).take k).filter valid).length = 0 ∨
          (((src.drop si).take k).filter valid).length = 4 ∨
          (((((src.drop si).take k).filter valid).length = 2 ∨
            (((src.drop si).take k).filter valid).length = 3) ∧ k = src.length - si)) ∧
        w' = bytesOf (sextets ((src.drop si).take k)) ++ w.drop ninc ∧
        ninc = (bytesOf (sextets ((src.drop si).take k))).length ∧
        ninc + DecodedLen (src.length - si - k) ≤ DecodedLen (src.length - si)) := by
  have hlen : (src.drop si).length = src.length - si := List.length_drop si src
  unfold decodeQuantum
  generalize src.drop si = rest at hlen
  rw [← hlen] at hcap ⊢
  have hpos : 0 < rest.length := by omega
  clear hlen hsi
  cases hscan : scan rest si 0 [0, 0, 0, 0] with
  | ret nsi err =>
    obtain ⟨h1, h2⟩ := scan_ret rest si 0 _ nsi err hscan
    refine ⟨w, nsi, 0, err, rfl, rfl, ?_, ?_⟩
    · intro he
      refine ⟨rfl, rfl, ?_⟩
      rcases h2 he with h | h
      · exact Or.inl h
      · right
        omega
    · intro he
      obtain ⟨_, hn, hall⟩ := h1 he
      have hf : rest.filter valid = [] := by
        rw [List.filter_eq_nil_iff]
        intro c hc
        simp [(hall c hc).1]
      refine ⟨rest.length, hn, hpos, Nat.le_refl _, ?_, ?_, ?_, ?_, ?_⟩
      · intro c hc
        rw [List.take_length] at hc
        exact Or.inr (hall c hc).2
      · left
        rw [List.take_length, hf]
        rfl
      · simp [List.take_length, sextets, hf, bytesOf]
      · simp [List.take_length, sextets, hf, bytesOf]
      · simp [DecodedLen]
  | conv nsi dlen dbuf =>
    obtain ⟨k, hk, hn, hall, hd, h2, h4, hlt, hb⟩ :=
      scan_conv rest si 0 _ nsi dlen dbuf hscan (by omega)
    have hfk := filter_take_length_le rest k hk
    have hvalid : ∀ c ∈ (rest.take k).filter valid, (decodeMap c).val < 64 := by
      intro c hc
      exact decodeMap_lt c (List.mem_filter.mp hc).2
    have hwk : DecodedLen k ≤ w.length := Nat.le_trans (DecodedLen_mono hk) hcap
    generalize hF : (rest.take k).filter valid = F at hd hb hvalid hfk
    simp only [Nat.zero_add] at hd
    have hdl : dlen = 2 ∨ dlen = 3 ∨ dlen = 4 := by omega
    rcases hdl with rfl | rfl | rfl
    · -- two sextets, one byte
      rcases F with _ | ⟨c0, _ | ⟨c1, _ | ⟨c2, F⟩⟩⟩ <;>
        simp only [List.length_cons, List.length_nil] at hd <;> try omega
      have hk' := hlt (by omega)
      subst hk'
      rw [List.take_length] at hF
      have e1 := hvalid c1 (by simp)
      obtain ⟨u0, -, -⟩ := unpack4 (decodeMap c0).val (decodeMap c1).val 0 0 e1
        (by omega) (by omega)
      simp only [List.length_cons, List.length_nil] at hfk
      rcases w with _ | ⟨x0, w⟩
      · simp [DecodedLen] at hwk
        omega
      subst hb
      simp only [storeAll, List.set_cons_zero, List.set_cons_succ, List.getD_cons_zero,
        List.getD_cons_succ, Nat.zero_shiftLeft, Nat.or_zero] at u0 ⊢
      refine ⟨byte ((decodeMap c0).val * 4 + (decodeMap c1).val / 16) :: w, nsi, 1, none,
        ?_, ?_, ?_, ?_⟩
      · simp [put, bind, Except.bind, pure, Except.pure, u0]
      · simp
      · intro h; exact absurd rfl h
      · intro _
        refine ⟨rest.length, hn, hpos, Nat.le_refl _, hall, ?_, ?_, ?_, ?_⟩
        · simp [hF]
        · simp [sextets, hF, bytesOf]
        · simp [sextets, hF, bytesOf]
        · simp only [DecodedLen]
          omega
    · -- three sextets, two bytes
      rcases F with _ | ⟨c0, _ | ⟨c1, _ | ⟨c2, _ | ⟨c3, F⟩⟩⟩⟩ <;>
        simp only [List.length_cons, List.length_nil] at hd <;> try omega
      have hk' := hlt (by omega)
      subst hk'
      rw [List.take_length] at hF
      have e1 := hvalid c1 (by simp)
      have e2 := hvalid c2 (by simp)
      obtain ⟨u0, u1, -⟩ := unpack4 (decodeMap c0).val (decodeMap c1).val (decodeMap c2).val 0
        e1 e2 (by omega)
      simp only [List.length_cons, List.length_nil] at hfk
      rcases w with _ | ⟨x0, _ | ⟨x1, w⟩⟩
      · simp [DecodedLen] at hwk
        omega
      · simp [DecodedLen] at hwk
        omega
      subst hb
      simp only [storeAll, List.set_cons_zero, List.set_cons_succ, List.getD_cons_zero,
        List.getD_cons_succ, Nat.zero_shiftLeft, Nat.or_zero] at u0 u1 ⊢
      refine ⟨byte ((decodeMap c0).val * 4 + (decodeMap c1).val / 16) ::
        byte ((decodeMap c1).val % 16 * 16 + (decodeMap c2).val / 4) :: w, nsi, 2, none,
        ?_, ?_, ?_, ?_⟩
      · simp [put, bind, Except.bind, pure, Except.pure, u0, u1]
      · simp
      · intro h; exact absurd rfl h
      · intro _
        refine ⟨rest.length, hn, hpos, Nat.le_refl _, hall, ?_, ?_, ?_, ?_⟩
        · simp [hF]
        · simp [sextets, hF, bytesOf]
        · simp [sextets, hF, bytesOf]
        · simp only [DecodedLen]
          omega
    · -- four sextets, three bytes
      rcases F with _ | ⟨c0, _ | ⟨c1, _ | ⟨c2, _ | ⟨c3, _ | ⟨c4, F⟩⟩⟩⟩⟩ <;>
        simp only [List.length_cons, List.length_nil] at hd <;> try omega
      have e1 := hvalid c1 (by simp)
      have e2 := hvalid c2 (by simp)
      have e3 := hvalid c3 (by simp)
      obtain ⟨u0, u1, u2⟩ := unpack4 (decodeMap c0).val (decodeMap c1).val (decodeMap c2).val
        (decodeMap c3).val e1 e2 e3
      simp only [List.length_cons, List.length_nil] at hfk
      rcases w with _ | ⟨x0, _ | ⟨x1, _ | ⟨x2, w⟩⟩⟩
      · simp [DecodedLen] at hwk
        omega
      · simp [DecodedLen] at hwk
        omega
      · simp [DecodedLen] at hwk
        omega
      subst hb
      simp only [storeAll, List.set_cons_zero, List.set_cons_succ, List.getD_cons_zero,
        List.getD_cons_succ, Nat.shiftRight_zero] at u0 u1 u2 ⊢
      refine ⟨byte ((decodeMap c0).val * 4 + (decodeMap c1).val / 16) ::
        byte ((decodeMap c1).val % 16 * 16 + (decodeMap c2).val / 4) ::
        byte ((decodeMap c2).val % 4 * 64 + (decodeMap c3).val) :: w, nsi, 3, none,
        ?_, ?_, ?_, ?_⟩
      · simp [put, bind, Except.bind, pure, Except.pure, u0, u1, u2]
      · simp
      · intro h; exact absurd rfl h
      · intro _
        refine ⟨k, hn, by omega, hk, hall, ?_, ?_, ?_, ?_⟩
        · rw [hF]; simp
        · simp [sextets, hF, bytesOf]
        · simp [sextets, hF, bytesOf]
        · simp only [DecodedLen]
          omega

/-! ## The loop of `Decode` and the round trip of the text -/

theorem bytesOf_append (x y : List Nat) (h : x.length = 0 ∨ x.length = 4 ∨ y = []) :
    bytesOf (x ++ y) = bytesOf x ++ bytesOf y := by
  rcases h with h | h | h
  · have : x = [] := List.length_eq_zero.mp h
    subst this
    simp [bytesOf]
  · rcases x with _ | ⟨d0, _ | ⟨d1, _ | ⟨d2, _ | ⟨d3, _ | ⟨d4, x⟩⟩⟩⟩⟩ <;>
      simp only [List.length_cons, List.length_nil] at h <;> try omega
    simp [bytesOf]
  · subst h
    simp [bytesOf]

theorem sextets_append (a b : List Byte) : sextets (a ++ b) = sextets a ++ sextets b := by
  simp [sextets]

theorem sextets_length (a : List Byte) : (sextets a).length = (a.filter valid).length := by
  simp [sextets]

theorem decoded_drop (rest : List Byte) (k : Nat)
    (hm : ((rest.take k).filter valid).length = 0 ∨ ((rest.take k).filter valid).length = 4 ∨
      ((((rest.take k).filter valid).length = 2 ∨ ((rest.take k).filter valid).length = 3) ∧
        k = rest.length)) :
    decoded rest = bytesOf (sextets (rest.take k)) ++ decoded (rest.drop k) := by
  unfold decoded
  conv_lhs => rw [← List.take_append_drop k rest, sextets_append]
  apply bytesOf_append
  rw [sextets_length]
  rcases hm with h | h | ⟨_, h⟩
  · exact Or.inl h
  · exact Or.inr (Or.inl h)
  · right; right
    rw [h, List.drop_length]
    rfl

theorem corrupt_drop (rest : List Byte) (k : Nat)
    (hall : ∀ c ∈ rest.take k, valid c = true ∨ c = 10 ∨ c = 13)
    (hm : ((rest.take k).filter valid).length = 0 ∨ ((rest.take k).filter valid).length = 4 ∨
      ((((rest.take k).filter valid).length = 2 ∨ ((rest.take k).filter valid).length = 3) ∧
        k = rest.length)) :
    corrupt rest ↔ corrupt (rest.drop k) := by
  have hsplit : rest = rest.take k ++ rest.drop k := (List.take_append_drop k rest).symm
  have hbad : (∃ c ∈ rest, valid c = false ∧ c ≠ 10 ∧ c ≠ 13) ↔
      (∃ c ∈ rest.drop k, valid c = false ∧ c ≠ 10 ∧ c ≠ 13) := by
    constructor
    · rintro ⟨c, hc, hv, h10, h13⟩
      rw [hsplit, List.mem_append] at hc
      rcases hc with hc | hc
      · rcases hall c hc with h | h | h
        · rw [h] at hv; cases hv
        · exact absurd h h10
        · exact absurd h h13
      · exact ⟨c, hc, hv, h10, h13⟩
    · rintro ⟨c, hc, hx⟩
      exact ⟨c, List.mem_of_mem_drop hc, hx⟩
  have hcount : (rest.filter valid).length =
      ((rest.take k).filter valid).length + ((rest.drop k).filter valid).length := by
    conv_lhs => rw [hsplit, List.filter_append, List.length_append]
  unfold corrupt
  rw [hbad, hcount]
  rcases hm with h | h | ⟨h, hk⟩
  · rw [h, Nat.zero_add]
  · rw [h]
    have : (4 + ((rest.drop k).filter valid).length) % 4 =
        ((rest.drop k).filter valid).length % 4 := by omega
    rw [this]
  · have hd : rest.drop k = [] := by rw [hk, List.drop_length]
    rw [hd]
    simp only [List.filter_nil, List.length_nil, Nat.add_zero]
    constructor
    · rintro (h' | h')
      · exact Or.inl h'
      · omega
    · rintro (h' | h')
      · exact Or.inl h'
      · omega

theorem decodeLoop_spec : ∀ (fuel : Nat) (dst src : List Byte) (si n : Nat),
    si ≤ src.length → src.length - si < fuel →
    n + DecodedLen (src.length - si) ≤ dst.length →
    ∃ dst' n' err, decodeLoop fuel dst src si n = .ok (dst', n', err) ∧
      dst'.length = dst.length ∧ n' ≤ n + DecodedLen (src.length - si) ∧
      (err ≠ none → corrupt (src.drop si)) ∧
      (err = none → ¬ corrupt (src.drop si) ∧
        dst'.take n' = dst.take n ++ decoded (src.drop si) ∧
        n' = n + (decoded (src.drop si)).length)
  | 0, _, _, _, _, _, hf, _ => by omega
  | fuel + 1, dst, src, si, n, hsi, hf, hcap => by
      unfold decodeLoop
      by_cases hlt : si < src.length
      · rw [if_pos hlt]
        have hn : n ≤ dst.length := by omega
        obtain ⟨w', nsi, ninc, err, hq, hwl, herr, hok⟩ :=
          decodeQuantum_spec (dst.drop n) src si hlt (by rw [List.length_drop]; omega)
        rw [List.length_drop] at hwl
        have hws := withSlice_tail dst n hn (fun w => decodeQuantum w src si) w'
          (nsi, ninc, err) hq
        simp only [bind, Except.bind, hws]
        cases err with
        | some e =>
          obtain ⟨h0, hw, hc⟩ := herr (by simp)
          subst h0 hw
          refine ⟨_, _, _, rfl, by simp, by omega, fun _ => hc, fun h => by cases h⟩
        | none =>
          obtain ⟨k, hk, hk0, hkl, hall, hm, hw, hni, hcap'⟩ := hok rfl
          subst hk
          have hl : (dst.take n ++ w').length = dst.length := by
            simp only [List.length_append, List.length_take]
            omega
          have hsub : src.length - (si + k) = src.length - si - k := by omega
          have hcap2 : n + ninc + DecodedLen (src.length - (si + k)) ≤
              (dst.take n ++ w').length := by
            rw [hl, hsub]
            omega
          obtain ⟨dst', n', err', hrun, hl', hn', hc', hd'⟩ :=
            decodeLoop_spec fuel (dst.take n ++ w') src (si + k) (n + ninc)
              (by omega) (by omega) hcap2
          have hdd : src.drop (si + k) = (src.drop si).drop k := by
            rw [List.drop_drop, Nat.add_comm]
          rw [hdd] at hc' hd'
          have hm' := hm
          rw [← List.length_drop si src] at hm'
          have hcd := corrupt_drop (src.drop si) k hall hm'
          have hdec := decoded_drop (src.drop si) k hm'
          refine ⟨dst', n', err', hrun, by rw [hl', hl], ?_, ?_, ?_⟩
          · rw [hsub] at hn'
            omega
          · intro he
            exact hcd.mpr (hc' he)
          · intro he
            obtain ⟨h1, h2, h3⟩ := hd' he
            refine ⟨fun h => h1 (hcd.mp h), ?_, ?_⟩
            · rw [h2, hdec, hw]
              have : (dst.take n ++ (bytesOf (sextets ((src.drop si).take k)) ++
                  (dst.drop n).drop ninc)).take (n + ninc) =
                  dst.take n ++ bytesOf (sextets ((src.drop si).take k)) := by
                rw [← List.append_assoc]
                apply List.take_left'
                simp only [List.length_append, List.length_take]
                omega
              rw [this, List.append_assoc]
            · rw [h3, hdec, List.length_append]
              omega
      · rw [if_neg hlt]
        have hd : src.drop si = [] := List.drop_eq_nil_of_le (by omega)
        refine ⟨dst, n, none, rfl, rfl, by omega, fun h => absurd rfl h, fun _ => ?_⟩
        rw [hd]
        refine ⟨?_, by simp [decoded, sextets, bytesOf], by simp [decoded, sextets, bytesOf]⟩
        simp [corrupt]

theorem text_eq_map : ∀ p : List Byte, text p = (groups p).map encode
  | a :: b :: c :: rest => by simp [text, groups, text_eq_map rest]
  | [a, b] => by simp [text, groups]
  | [a] => by simp [text, groups]
  | [] => by simp [text, groups]

theorem groups_lt : ∀ (p : List Byte) (g : Nat), g ∈ groups p → g < 64
  | a :: b :: c :: rest, g, h => by
      have ha := a.isLt
      have hb := b.isLt
      have hc := c.isLt
      simp only [groups, List.mem_cons] at h
      rcases h with rfl | rfl | rfl | rfl | h
      · omega
      · omega
      · omega
      · omega
      · exact groups_lt rest g h
  | [a, b], g, h => by
      have ha := a.isLt
      have hb := b.isLt
      simp only [groups, List.mem_cons, List.mem_singleton, List.not_mem_nil, or_false] at h
      rcases h with rfl | rfl | rfl <;> omega
  | [a], g, h => by
      have ha := a.isLt
      simp only [groups, List.mem_cons, List.mem_singleton, List.not_mem_nil, or_false] at h
      rcases h with rfl | rfl <;> omega
  | [], g, h => by simp [groups] at h

theorem decodeMap_encode : ∀ i : Fin 64, decodeMap (encode i.val) = byte i.val := by
  decide

theorem sextets_map_encode : ∀ l : List Nat, (∀ g ∈ l, g < 64) →
    sextets (l.map encode) = l
  | [], _ => by simp [sextets]
  | g :: l, h => by
      have hg : g < 64 := h g (List.mem_cons_self _ _)
      have hd := decodeMap_encode ⟨g, hg⟩
      simp only at hd
      have hv : valid (encode g) = true := by
        simp only [valid, hd, bne_iff_ne, ne_eq]
        intro hx
        have := congrArg Fin.val hx
        simp only [byte] at this
        omega
      have ih := sextets_map_encode l (fun x hx => h x (List.mem_cons_of_mem _ hx))
      simp only [sextets] at ih ⊢
      simp only [List.map_cons, List.filter_cons, hv, if_true, hd, ih, byte]
      congr 1
      omega

theorem byte_val (a : Byte) (x : Nat) (h : x = a.val) : byte x = a := by
  subst h
  apply Fin.ext
  simp only [byte]
  exact Nat.mod_eq_of_lt a.isLt

theorem bytesOf_groups : ∀ p : List Byte, bytesOf (groups p) = p
  | a :: b :: c :: rest => by
      have ha := a.isLt
      have hb := b.isLt
      have hc := c.isLt
      simp only [groups, bytesOf, bytesOf_groups rest]
      rw [byte_val a _ (by omega), byte_val b _ (by omega), byte_val c _ (by omega)]
  | [a, b] => by
      have ha := a.isLt
      have hb := b.isLt
      simp only [groups, bytesOf]
      rw [byte_val a _ (by omega), byte_val b _ (by omega)]
  | [a] => by
      have ha := a.isLt
      simp only [groups, bytesOf]
      rw [byte_val a _ (by omega)]
  | [] => by simp [groups, bytesOf]

theorem decoded_text (p : List Byte) : decoded (text p) = p := by
  unfold decoded
  rw [text_eq_map, sextets_map_encode _ (groups_lt p), bytesOf_groups]

theorem valid_of_mem_text (p : List Byte) (c : Byte) (h : c ∈ text p) : valid c = true := by
  rw [text_eq_map] at h
  obtain ⟨g, hg, rfl⟩ := List.mem_map.mp h
  have hd := decodeMap_encode ⟨g, groups_lt p g hg⟩
  simp only at hd
  simp only [valid, hd, bne_iff_ne, ne_eq]
  intro hx
  have := congrArg Fin.val hx
  have := groups_lt p g hg
  simp only [byte] at *
  omega

theorem not_corrupt_text (p : List Byte) : ¬ corrupt (text p) := by
  rintro (⟨c, hc, hv, -⟩ | h)
  · rw [valid_of_mem_text p c hc] at hv
    cases hv
  · have : (text p).filter valid = text p :=
      List.filter_eq_self.mpr (valid_of_mem_text p)
    rw [this, text_length] at h
    unfold EncodedLen at h
    omega

theorem Decode_spec (dst x : List Byte) (hcap : DecodedLen x.length ≤ dst.length) :
    ∃ dst' n err, Decode dst x = .ok (dst', n, err) ∧
      dst'.length = dst.length ∧ n ≤ DecodedLen x.length ∧
      (err ≠ none ↔ corrupt x) ∧
      (err = none → dst'.take n = decoded x ∧ n = (decoded x).length) := by
  unfold Decode
  by_cases h0 : x.length = 0
  · rw [if_pos h0]
    have : x = [] := List.length_eq_zero.mp h0
    subst this
    refine ⟨dst, 0, none, rfl, rfl, Nat.zero_le _, ?_, fun _ => ?_⟩
    · simp [corrupt]
    · simp [decoded, sextets, bytesOf]
  · rw [if_neg h0]
    obtain ⟨dst', n, err, hrun, hl, hn, hc, hd⟩ :=
      decodeLoop_spec (x.length + 1) dst x 0 0 (Nat.zero_le _) (by omega) (by simpa using hcap)
    simp only [List.drop_zero, Nat.zero_add, Nat.sub_zero, List.take_zero, List.nil_append]
      at hn hc hd
    refine ⟨dst', n, err, hrun, hl, hn, ⟨hc, fun hx => ?_⟩, fun he => (hd he).2⟩
    intro he
    exact (hd he).1 hx

theorem DecodedLen_EncodedLen (n : Nat) : DecodedLen (EncodedLen n) = n := by
  unfold DecodedLen EncodedLen
  omega

theorem Decode_text (p dst : List Byte) (hl : dst.length = DecodedLen (text p).length) :
    Decode dst (text p) = .ok (p, p.length, none) := by
  obtain ⟨dst', n, err, hrun, hl', hn, hc, hd⟩ := Decode_spec dst (text p) (by omega)
  have he : err = none := by
    by_contra hne
    exact not_corrupt_text p (hc.mp hne)
  subst he
  obtain ⟨h1, h2⟩ := hd rfl
  rw [decoded_text] at h1 h2
  rw [text_length, DecodedLen_EncodedLen] at hl
  subst h2
  have : dst' = p := by
    rw [← h1]
    exact (List.take_of_length_le (by omega)).symm
  subst this
  exact hrun

end base64

open base64

/-! ## Building a token, and reading it back -/

theorem withSlice_mid {α : Type} (a m z : List Byte) (f : List Byte → Run (List Byte × α))
    (w' : List Byte) (x : α) (hf : f m = .ok (w', x)) (lo hi : Int)
    (hlo : lo = (a.length : Nat)) (hhi : hi = ((a.length + m.length : Nat) : Int)) :
    withSlice (a ++ m ++ z) lo hi f = .ok (a ++ w' ++ z, x) := by
  subst hlo hhi
  unfold withSlice
  rw [sliceOf_ok _ a.length (a.length + m.length) (by omega) (by simp)]
  have h1 : ((a ++ m ++ z).take (a.length + m.length)).drop a.length = m := by
    rw [List.append_assoc, List.take_append, List.drop_left, List.take_left]
  have h2 : (a ++ m ++ z).take a.length = a := by
    rw [List.append_assoc, List.take_left]
  have h3 : (a ++ m ++ z).drop (a.length + m.length) = z := by
    rw [← List.length_append, List.drop_left]
  simp only [bind, Except.bind, h1, hf, Int.toNat_ofNat, h2, h3, pure, Except.pure]

theorem netjsonEncoder.fill_ok (s buf : List Byte) (h : s.length = EncodedLen buf.length + 9 + 5) :
    netjsonEncoder.fill s s.length buf =
      .ok (netjsonChanQPrefix ++ text buf ++ netjsonChanQSuffix, 9, 5) := by
  obtain ⟨a, m, z, rfl, ha, hm, hz⟩ : ∃ a m z : List Byte, s = a ++ m ++ z ∧ a.length = 9 ∧
      m.length = EncodedLen buf.length ∧ z.length = 5 := by
    refine ⟨s.take 9, (s.drop 9).take (EncodedLen buf.length),
      (s.drop 9).drop (EncodedLen buf.length), ?_, ?_, ?_, ?_⟩
    · rw [List.append_assoc, List.take_append_drop, List.take_append_drop]
    · simp only [List.length_take]; omega
    · simp only [List.length_take, List.length_drop]; omega
    · simp only [List.length_drop]; omega
  have hq : netjsonChanQPrefix.length = 9 := rfl
  have hs : netjsonChanQSuffix.length = 5 := rfl
  have hc1 : copy (a ++ m ++ z) netjsonChanQPrefix = (netjsonChanQPrefix ++ m ++ z, 9) := by
    unfold copy
    have hmin : min (a ++ m ++ z).length netjsonChanQPrefix.length = 9 := by
      simp only [List.length_append, hq]; omega
    simp only [hmin]
    rw [← hq, List.take_length, hq, ← ha, List.append_assoc, List.drop_left, List.append_assoc]
  have hc2 : copy z netjsonChanQSuffix = (netjsonChanQSuffix, 5) := by
    unfold copy
    have hmin : min z.length netjsonChanQSuffix.length = 5 := by rw [hz, hs]; rfl
    simp only [hmin]
    rw [← hs, List.take_length, hs, ← hz, List.drop_length, List.append_nil]
  have hw2 := withSlice_mid (netjsonChanQPrefix ++ m) z []
    (fun w => (pure (copy w netjsonChanQSuffix) : Run (List Byte × Nat))) netjsonChanQSuffix 5
    (by simp only [hc2]; rfl)
    (((a ++ m ++ z).length : Int) - (netjsonChanQSuffix.length : Nat))
    ((netjsonChanQPrefix ++ m ++ z).length : Int)
    (by simp only [List.length_append, hq, hs, ha, hm, hz]; omega)
    (by simp only [List.length_append, hq, hs, ha, hm, hz])
  have hw3 := withSlice_mid netjsonChanQPrefix m netjsonChanQSuffix
    (fun w => (do let w' ← Encode w buf; pure (w', ()) : Run (List Byte × Unit)))
    (text buf) () (by simp [Encode_ok buf m hm, bind, Except.bind, pure, Except.pure])
    ((netjsonChanQPrefix.length : Nat) : Int)
    (((a ++ m ++ z).length : Int) - (netjsonChanQSuffix.length : Nat))
    rfl
    (by simp only [List.length_append, hq, hs, ha, hm, hz]; omega)
  simp only [List.append_nil, bind, Except.bind, pure, Except.pure] at hw2 hw3
  unfold netjsonEncoder.fill
  simp only [hc1, bind, Except.bind, pure, Except.pure, hw2, hw3]

set_option maxRecDepth 100000 in
theorem valid_iff_isAlphabet : ∀ c : Byte, valid c = true ↔ isAlphabet c := by
  decide

theorem isAlphabet_of_mem_text (p : List Byte) (c : Byte) (h : c ∈ text p) : isAlphabet c :=
  (valid_iff_isAlphabet c).mp (valid_of_mem_text p c h)

theorem unescapeSolidus_append (l r : List Byte) (h : (92 : Byte) ∉ l) :
    unescapeSolidus (l ++ r) = l ++ unescapeSolidus r := by
  induction l with
  | nil => rfl
  | cons c l ih =>
    have hc : c ≠ 92 := fun hc => h (hc ▸ List.mem_cons_self _ _)
    have hl : (92 : Byte) ∉ l := fun hl => h (List.mem_cons_of_mem _ hl)
    rw [List.cons_append, unescapeSolidus, ih hl, List.cons_append]
    intro rest hx _
    exact hc hx

theorem unquoteToken_token (x : List Byte) (h : (92 : Byte) ∉ x) :
    unquoteToken (netjsonChanQPrefix ++ x ++ netjsonChanQSuffix) =
      netjsonChanPrefix ++ x ++ netjsonChanSuffix := by
  have e : (netjsonChanQPrefix ++ x ++ netjsonChanQSuffix).drop 1 =
      ([92, 47] ++ (([47, 99, 104, 97, 110, 40] ++ x ++ [41]) ++ [92, 47, 47])) ++ [34] := by
    simp [netjsonChanQPrefix, netjsonChanQSuffix]
  have hm : (92 : Byte) ∉ [47, 99, 104, 97, 110, 40] ++ x ++ [41] := by
    simp only [List.mem_append, not_or]
    exact ⟨⟨by decide, h⟩, by decide⟩
  unfold unquoteToken
  rw [e, List.dropLast_concat]
  show unescapeSolidus (92 :: 47 :: _) = _
  rw [unescapeSolidus]
  show 47 :: unescapeSolidus (([47, 99, 104, 97, 110, 40] ++ x ++ [41]) ++ [92, 47, 47]) = _
  rw [unescapeSolidus_append _ _ hm]
  simp [unescapeSolidus, netjsonChanPrefix, netjsonChanSuffix]

theorem netjsonEncoder_ok {V T E : Type} (typeOf : V → T)
    (compact : List Byte → List Byte → Bool → List Byte × Option E)
    (e : encodeState V E) (v : V) (opts : encOpts) (enc : NetjsonEncoder V E)
    (P : List Byte) (hE : e.netjsonEnc = some enc) (hP : enc.NetjsonEncode v = .ok P) :
    netjsonEncoder typeOf compact e v opts =
      .ok { e := { e with Buffer := (compact e.Buffer
                    (netjsonChanQPrefix ++ text P ++ netjsonChanQSuffix) opts.escapeHTML).1 },
            err := (compact e.Buffer
                    (netjsonChanQPrefix ++ text P ++ netjsonChanQSuffix) opts.escapeHTML).2.map
                      (JsonError.MarshalerError (typeOf v)),
            compacted := [(netjsonChanQPrefix ++ text P ++ netjsonChanQSuffix,
              opts.escapeHTML)] } := by
  have hq : netjsonChanQPrefix.length = 9 := rfl
  have hs : netjsonChanQSuffix.length = 5 := rfl
  have hfill := netjsonEncoder.fill_ok (make (EncodedLen P.length + 9 + 5)) P (by simp [make])
  simp only [make, List.length_replicate] at hfill
  simp only [netjsonEncoder, hE, hP, hq, hs, make, hfill, bind, Except.bind, pure, Except.pure]

theorem interior_token (x : List Byte) :
    interior (netjsonChanPrefix ++ x ++ netjsonChanSuffix) = x := by
  have h7 : netjsonChanPrefix.length = 7 := rfl
  have h3 : netjsonChanSuffix.length = 3 := rfl
  unfold interior
  have : (netjsonChanPrefix ++ x ++ netjsonChanSuffix).length - 3 =
      (netjsonChanPrefix ++ x).length := by
    simp only [List.length_append, h3]
    omega
  rw [this, List.take_left, ← h7, List.drop_left]

theorem netjsonIsEncoded_token {V T E : Type} (d : decodeState V T E) (x : List Byte)
    (hd : d.netjsonDec.isSome = true) :
    netjsonIsEncoded d (netjsonChanPrefix ++ x ++ netjsonChanSuffix) = .ok true := by
  have h7 : netjsonChanPrefix.length = 7 := rfl
  have h3 : netjsonChanSuffix.length = 3 := rfl
  rw [netjsonIsEncoded_eq]
  simp only [Except.ok.injEq, decide_eq_true_eq]
  refine ⟨hd, ?_, ?_, ?_⟩
  · simp only [List.length_append, h7]
    omega
  · rw [List.append_assoc, ← h7, List.take_left]
  · have : (netjsonChanPrefix ++ x ++ netjsonChanSuffix).length - 3 =
        (netjsonChanPrefix ++ x).length := by
      simp only [List.length_append, h3]
      omega
    rw [this, List.drop_left]

theorem corrupt_of_bad (x : List Byte)
    (hx : (∃ c ∈ x, ¬ isAlphabet c ∧ c ≠ 10 ∧ c ≠ 13) ∨
      (x.filter (fun c => decide (c ≠ 10 ∧ c ≠ 13))).length % 4 = 1) : corrupt x := by
  by_cases hbad : ∃ c ∈ x, valid c = false ∧ c ≠ 10 ∧ c ≠ 13
  · exact Or.inl hbad
  · rcases hx with ⟨c, hc, ha, h10, h13⟩ | hx
    · exfalso
      apply hbad
      refine ⟨c, hc, ?_, h10, h13⟩
      cases hv : valid c
      · rfl
      · exact absurd ((valid_iff_isAlphabet c).mp hv) ha
    · right
      have : x.filter valid = x.filter (fun c => decide (c ≠ 10 ∧ c ≠ 13)) := by
        apply List.filter_congr
        intro c hc
        cases hv : valid c
        · by_cases hnl : c ≠ 10 ∧ c ≠ 13
          · exact absurd ⟨c, hc, hv, hnl.1, hnl.2⟩ hbad
          · simp [hnl]
        · have ha := (valid_iff_isAlphabet c).mp hv
          have : c ≠ 10 ∧ c ≠ 13 := by
            constructor
            · rintro rfl
              revert ha
              decide
            · rintro rfl
              revert ha
              decide
          simp [this]
      rw [this]
      exact hx

/-! ## Claims about the token and the round trip -/

/-- C1. Round trip: when the Encoder returns the payload `P`, the token that
`netjsonEncoder` builds and hands to `compact`, once its quotes are removed and
each `\/` is read as `/`, is accepted by `netjsonIsEncoded` under any configured
Decoder, and `netjsonDecoder` calls that Decoder exactly once, with a payload
equal to `P`; the only error it saves is the one that this call returns, if
any, and the destination holds what the Decoder left there. -/
theorem netjson_round_trip {V T E : Type} (typeOf : V → T)
    (compact : List Byte → List Byte → Bool → List Byte × Option E)
    (e : encodeState V E) (v : V) (opts : encOpts) (enc : NetjsonEncoder V E)
    (P : List Byte) (d : decodeState V T E) (dec : NetjsonDecoder V E) (dest : V)
    (hE : e.netjsonEnc = some enc) (hP : enc.NetjsonEncode v = .ok P)
    (hD : d.netjsonDec = some dec) :
    ∃ r tok, netjsonEncoder typeOf compact e v opts = .ok r ∧
      r.compacted = [(tok, opts.escapeHTML)] ∧
      netjsonIsEncoded d (unquoteToken tok) = .ok true ∧
      netjsonDecoder typeOf d (unquoteToken tok) dest =
        .ok { d := match (dec.NetjsonDecode dest P).2 with
                   | some err => { d with savedError := d.savedError ++ [.capability err] }
                   | none => d,
              v := (dec.NetjsonDecode dest P).1,
              calls := [.base64Decode (interior (unquoteToken tok)), .NetjsonDecode P] } := by
  have h92 : (92 : Byte) ∉ text P := by
    intro h
    have := isAlphabet_of_mem_text P 92 h
    revert this
    decide
  have hacc := netjsonIsEncoded_token d (text P) (by rw [hD]; rfl)
  refine ⟨_, _, netjsonEncoder_ok typeOf compact e v opts enc P hE hP, rfl, ?_, ?_⟩
  · rw [unquoteToken_token _ h92]
    exact hacc
  · rw [unquoteToken_token _ h92]
    obtain ⟨dec', hd', -, hrun⟩ := netjsonDecoder_accept typeOf d _ dest hacc
    rw [hD] at hd'
    cases hd'
    rw [hrun, interior_token, Decode_text P _ (by simp [make])]
    have hs : sliceOf P 0 (P.length : Int) = .ok P := by
      have := sliceOf_ok P 0 P.length (Nat.zero_le _) (Nat.le_refl _)
      simpa using this
    simp only [hs]
    rfl

/-- Witness of C1: the payload `[255, 0]` through the sample capabilities. -/
theorem netjson_round_trip_witness :
    sampleEncodeState.netjsonEnc = some sampleEncoder ∧
    sampleEncoder.NetjsonEncode [255, 0] = .ok [255, 0] ∧
    sampleDecodeState.netjsonDec = some sampleDecoder ∧
    ∃ r tok, netjsonEncoder sampleType sampleCompact sampleEncodeState [255, 0] ⟨true⟩ = .ok r ∧
      r.compacted = [(tok, true)] ∧
      netjsonIsEncoded sampleDecodeState (unquoteToken tok) = .ok true ∧
      netjsonDecoder sampleType sampleDecodeState (unquoteToken tok) [7] =
        .ok { d := sampleDecodeState, v := [255, 0],
              calls := [.base64Decode (interior (unquoteToken tok)),
                .NetjsonDecode [255, 0]] } :=
  ⟨rfl, rfl, rfl, netjson_round_trip sampleType sampleCompact sampleEncodeState [255, 0] ⟨true⟩
    sampleEncoder [255, 0] sampleDecodeState sampleDecoder [7] rfl rfl rfl⟩

/-- C2. Wire format: when the Encoder returns the payload `P`, the slice handed
to `compact` is the 9 bytes `"\//chan(`, then the text `x` that
`RawURLEncoding` gives for `P`, then the 5 bytes `)\//"`; its length is
`EncodedLen(len P) + 9 + 5`; and the three stores tile it: whatever the
slice of that length held before, the two `copy` calls store 9 and 5 bytes and
the result is the same token, with `len x = EncodedLen(len P)` bytes between. -/
theorem netjsonEncoder_wire_format {V T E : Type} (typeOf : V → T)
    (compact : List Byte → List Byte → Bool → List Byte × Option E)
    (e : encodeState V E) (v : V) (opts : encOpts) (enc : NetjsonEncoder V E)
    (P : List Byte) (hE : e.netjsonEnc = some enc) (hP : enc.NetjsonEncode v = .ok P) :
    ∃ r x, netjsonEncoder typeOf compact e v opts = .ok r ∧
      base64.EncodeToString P = .ok x ∧
      r.compacted = [(netjsonChanQPrefix ++ x ++ netjsonChanQSuffix, opts.escapeHTML)] ∧
      (netjsonChanQPrefix ++ x ++ netjsonChanQSuffix).length =
        base64.EncodedLen P.length + 9 + 5 ∧
      x.length = base64.EncodedLen P.length ∧
      ∀ s : List Byte, s.length = base64.EncodedLen P.length + 9 + 5 →
        netjsonEncoder.fill s s.length P =
          .ok (netjsonChanQPrefix ++ x ++ netjsonChanQSuffix, 9, 5) := by
  refine ⟨_, text P, netjsonEncoder_ok typeOf compact e v opts enc P hE hP,
    Encode_ok P _ (by simp [make]), rfl, ?_, text_length P, ?_⟩
  · simp only [List.length_append, text_length, netjsonChanQPrefix, netjsonChanQSuffix,
      List.length_cons, List.length_nil]
    omega
  · intro s hs
    exact netjsonEncoder.fill_ok s P hs

/-- Witness of C2: the payload `[255, 0]`, whose text is `_wA`. -/
theorem netjsonEncoder_wire_format_witness :
    sampleEncodeState.netjsonEnc = some sampleEncoder ∧
    sampleEncoder.NetjsonEncode [255, 0] = .ok [255, 0] ∧
    ∃ r x, netjsonEncoder sampleType sampleCompact sampleEncodeState [255, 0] ⟨false⟩ = .ok r ∧
      base64.EncodeToString [255, 0] = .ok x ∧
      r.compacted = [(netjsonChanQPrefix ++ x ++ netjsonChanQSuffix, false)] ∧
      (netjsonChanQPrefix ++ x ++ netjsonChanQSuffix).length =
        base64.EncodedLen [(255 : Byte), 0].length + 9 + 5 ∧
      x.length = base64.EncodedLen [(255 : Byte), 0].length ∧
      ∀ s : List Byte, s.length = base64.EncodedLen [(255 : Byte), 0].length + 9 + 5 →
        netjsonEncoder.fill s s.length [255, 0] =
          .ok (netjsonChanQPrefix ++ x ++ netjsonChanQSuffix, 9, 5) :=
  ⟨rfl, rfl, netjsonEncoder_wire_format sampleType sampleCompact sampleEncodeState [255, 0]
    ⟨false⟩ sampleEncoder [255, 0] rfl rfl⟩

/-! ## Claims about detection and the missing or failing capability -/

/-- C3. Detection: `netjsonIsEncoded` returns on every input, and it returns
true exactly when a Decoder is configured, `s` has at least 7 bytes, the first
7 bytes of `s` are `//chan(` and the last 3 bytes of `s` are `)//`. -/
theorem netjsonIsEncoded_iff {V T E : Type} (d : decodeState V T E) (s : List Byte) :
    ∃ b, netjsonIsEncoded d s = .ok b ∧
      (b = true ↔ (d.netjsonDec.isSome = true ∧ 7 ≤ s.length ∧
        s.take 7 = netjsonChanPrefix ∧ s.drop (s.length - 3) = netjsonChanSuffix)) :=
  ⟨_, netjsonIsEncoded_eq d s, by simp⟩

/-- C4. Detection precision: on a string that does not both start with
`//chan(` and end with `)//`, with or without a Decoder, `netjsonDecoder`
returns normally, saves exactly one error, the `UnmarshalTypeError` with value
`"string"`, the destination's type and the offset `d.off`, makes no call out of
the package and leaves the destination as it was. -/
theorem netjsonDecoder_undelimited {V T E : Type} (typeOf : V → T)
    (d : decodeState V T E) (s : List Byte) (v : V)
    (h : ¬ (netjsonChanPrefix <+: s ∧ netjsonChanSuffix <:+ s)) :
    netjsonDecoder typeOf d s v =
      .ok { d := { d with savedError := d.savedError ++
                    [.UnmarshalTypeError "string" (typeOf v) d.off] },
            v := v, calls := [] } := by
  apply netjsonDecoder_reject
  rw [netjsonIsEncoded_eq]
  simp only [Except.ok.injEq, decide_eq_false_iff_not]
  rintro ⟨_, _, hp, hs⟩
  exact h ⟨hp ▸ List.take_prefix 7 s, hs ▸ List.drop_suffix _ s⟩

/-- Witness of C4: the string `chan(abc)`, with the sample Decoder configured. -/
theorem netjsonDecoder_undelimited_witness :
    ¬ (netjsonChanPrefix <+: [99, 104, 97, 110, 40, 97, 98, 99, 41] ∧
        netjsonChanSuffix <:+ [99, 104, 97, 110, 40, 97, 98, 99, 41]) ∧
    netjsonDecoder sampleType sampleDecodeState [99, 104, 97, 110, 40, 97, 98, 99, 41] [7] =
      .ok { d := { sampleDecodeState with
                    savedError := [.UnmarshalTypeError "string" 1 5] },
            v := [7], calls := [] } :=
  ⟨by decide, netjsonDecoder_undelimited sampleType sampleDecodeState _ [7] (by decide)⟩

/-- C5. Missing Decoder: with no Decoder configured, on every string, correctly
delimited or not, `netjsonDecoder` returns normally, saves exactly the
`UnmarshalTypeError` with value `"string"`, makes no call out of the package
(so no base64 decoding) and leaves the destination as it was. -/
theorem netjsonDecoder_no_decoder {V T E : Type} (typeOf : V → T)
    (d : decodeState V T E) (s : List Byte) (v : V) (h : d.netjsonDec = none) :
    netjsonDecoder typeOf d s v =
      .ok { d := { d with savedError := d.savedError ++
                    [.UnmarshalTypeError "string" (typeOf v) d.off] },
            v := v, calls := [] } := by
  apply netjsonDecoder_reject
  rw [netjsonIsEncoded_eq]
  simp [h]

/-- Witness of C5: the correctly delimited token `//chan(_wA)//`. -/
theorem netjsonDecoder_no_decoder_witness :
    bareDecodeState.netjsonDec = none ∧
    netjsonDecoder sampleType bareDecodeState
        [47, 47, 99, 104, 97, 110, 40, 95, 119, 65, 41, 47, 47] [7] =
      .ok { d := { bareDecodeState with
                    savedError := [.UnmarshalTypeError "string" 1 5] },
            v := [7], calls := [] } :=
  ⟨rfl, netjsonDecoder_no_decoder sampleType bareDecodeState _ [7] rfl⟩

/-- C6. Missing Encoder: with no Encoder configured, for every value
`netjsonEncoder` reports the `UnsupportedTypeError` carrying the value's type,
leaves the encode state, its buffer included, as it was and does not call
`compact`. -/
theorem netjsonEncoder_no_encoder {V T E : Type} (typeOf : V → T)
    (compact : List Byte → List Byte → Bool → List Byte × Option E)
    (e : encodeState V E) (v : V) (opts : encOpts) (h : e.netjsonEnc = none) :
    netjsonEncoder typeOf compact e v opts =
      .ok { e := e, err := some (.UnsupportedTypeError (typeOf v)), compacted := [] } := by
  simp [netjsonEncoder, h, pure, Except.pure]

/-- Witness of C6: the value `[255, 0]` and an encode state without Encoder. -/
theorem netjsonEncoder_no_encoder_witness :
    bareEncodeState.netjsonEnc = none ∧
    netjsonEncoder sampleType sampleCompact bareEncodeState [255, 0] ⟨true⟩ =
      .ok { e := bareEncodeState, err := some (.UnsupportedTypeError 2),
            compacted := [] } :=
  ⟨rfl, netjsonEncoder_no_encoder sampleType sampleCompact bareEncodeState _ _ rfl⟩

/-- C7. Encoder failure: when the configured Encoder returns the error `err`
for the value, `netjsonEncoder` reports exactly the `MarshalerError` pairing
the value's type with `err`, builds no token (it does not call `compact`) and
leaves the encode state, its buffer included, as it was. -/
theorem netjsonEncoder_encoder_error {V T E : Type} (typeOf : V → T)
    (compact : List Byte → List Byte → Bool → List Byte × Option E)
    (e : encodeState V E) (v : V) (opts : encOpts) (enc : NetjsonEncoder V E) (err : E)
    (h : e.netjsonEnc = some enc) (herr : enc.NetjsonEncode v = .error err) :
    netjsonEncoder typeOf compact e v opts =
      .ok { e := e, err := some (.MarshalerError (typeOf v) err), compacted := [] } := by
  simp [netjsonEncoder, h, herr, pure, Except.pure]

/-- Witness of C7: the sample Encoder refuses the five-byte value. -/
theorem netjsonEncoder_encoder_error_witness :
    sampleEncodeState.netjsonEnc = some sampleEncoder ∧
    sampleEncoder.NetjsonEncode [1, 2, 3, 4, 5] = .error 5 ∧
    netjsonEncoder sampleType sampleCompact sampleEncodeState [1, 2, 3, 4, 5] ⟨false⟩ =
      .ok { e := sampleEncodeState, err := some (.MarshalerError 5 5),
            compacted := [] } :=
  ⟨rfl, rfl, netjsonEncoder_encoder_error sampleType sampleCompact sampleEncodeState _ _
    sampleEncoder 5 rfl rfl⟩

/-! ## Claims about the interior of an accepted token -/

/-- C8. Base64 fidelity: when the Encoder returns the payload `P`, the token
handed to `compact` is the quoted prefix, an interior `x` and the quoted
suffix, where `x` has exactly `ceil(4 * len P / 3)` bytes, every byte of `x` is
in the alphabet `A-Z a-z 0-9 - _`, and the padding byte `=` does not occur. -/
theorem netjsonEncoder_interior {V T E : Type} (typeOf : V → T)
    (compact : List Byte → List Byte → Bool → List Byte × Option E)
    (e : encodeState V E) (v : V) (opts : encOpts) (enc : NetjsonEncoder V E)
    (P : List Byte) (hE : e.netjsonEnc = some enc) (hP : enc.NetjsonEncode v = .ok P) :
    ∃ r x, netjsonEncoder typeOf compact e v opts = .ok r ∧
      r.compacted = [(netjsonChanQPrefix ++ x ++ netjsonChanQSuffix, opts.escapeHTML)] ∧
      x.length = (4 * P.length + 2) / 3 ∧
      (∀ c ∈ x, isAlphabet c) ∧ (61 : Byte) ∉ x := by
  refine ⟨_, text P, netjsonEncoder_ok typeOf compact e v opts enc P hE hP, rfl, ?_,
    isAlphabet_of_mem_text P, ?_⟩
  · rw [text_length]
    unfold EncodedLen
    omega
  · intro h
    have := isAlphabet_of_mem_text P 61 h
    revert this
    decide

/-- Witness of C8: the one-byte payload `[255]`, whose interior is `_w`. -/
theorem netjsonEncoder_interior_witness :
    sampleEncodeState.netjsonEnc = some sampleEncoder ∧
    sampleEncoder.NetjsonEncode [255] = .ok [255] ∧
    ∃ r x, netjsonEncoder sampleType sampleCompact sampleEncodeState [255] ⟨true⟩ = .ok r ∧
      r.compacted = [(netjsonChanQPrefix ++ x ++ netjsonChanQSuffix, true)] ∧
      x.length = (4 * [(255 : Byte)].length + 2) / 3 ∧
      (∀ c ∈ x, isAlphabet c) ∧ (61 : Byte) ∉ x :=
  ⟨rfl, rfl, netjsonEncoder_interior sampleType sampleCompact sampleEncodeState [255] ⟨true⟩
    sampleEncoder [255] rfl rfl⟩

/-- C9 as stated fails: in the accepted token `//chan(` LF `)//` the interior
is one line feed, a byte outside the alphabet, and its length is 1 mod 4; yet
`Decode` skips the line feed, no error is saved and the Decoder is called with
the empty payload. -/
theorem netjsonDecoder_line_feed_interior :
    netjsonIsEncoded sampleDecodeState [47, 47, 99, 104, 97, 110, 40, 10, 41, 47, 47] =
      .ok true ∧
    (∃ c ∈ interior [47, 47, 99, 104, 97, 110, 40, 10, 41, 47, 47], ¬ isAlphabet c) ∧
    (interior [47, 47, 99, 104, 97, 110, 40, 10, 41, 47, 47]).length % 4 = 1 ∧
    netjsonDecoder sampleType sampleDecodeState
        [47, 47, 99, 104, 97, 110, 40, 10, 41, 47, 47] [7] =
      .ok { d := sampleDecodeState, v := [],
            calls := [.base64Decode [10], .NetjsonDecode []] } :=
  ⟨rfl, ⟨10, by decide, by decide⟩, rfl, rfl⟩

/-- C9, amended. Invalid interior is a failure: when `netjsonIsEncoded` accepts
`s` and the interior holds a byte that is neither in the alphabet
`A-Z a-z 0-9 - _` nor a carriage return or line feed, or the number of its bytes
other than carriage returns and line feeds is 1 mod 4, `netjsonDecoder` saves a
`CorruptInputError`, does not call the Decoder and leaves the destination as
it was. -/
theorem netjsonDecoder_invalid_interior {V T E : Type} (typeOf : V → T)
    (d : decodeState V T E) (s : List Byte) (v : V)
    (h : netjsonIsEncoded d s = .ok true)
    (hx : (∃ c ∈ interior s, ¬ isAlphabet c ∧ c ≠ 10 ∧ c ≠ 13) ∨
      ((interior s).filter (fun c => decide (c ≠ 10 ∧ c ≠ 13))).length % 4 = 1) :
    ∃ off, netjsonDecoder typeOf d s v =
      .ok { d := { d with savedError := d.savedError ++ [.CorruptInputError off] },
            v := v, calls := [.base64Decode (interior s)] } := by
  obtain ⟨dec, -, -, hrun⟩ := netjsonDecoder_accept typeOf d s v h
  obtain ⟨dst', n, err, hD, -, -, hc, -⟩ :=
    Decode_spec (make (DecodedLen (interior s).length)) (interior s) (by simp [make])
  have hne : err ≠ none := hc.mpr (corrupt_of_bad _ hx)
  cases err with
  | none => exact absurd rfl hne
  | some off =>
    refine ⟨off, ?_⟩
    rw [hrun, hD]
    rfl

/-- Witness of the amended C9: the token `//chan(A)//`, one alphabet byte. -/
theorem netjsonDecoder_invalid_interior_witness :
    netjsonIsEncoded sampleDecodeState [47, 47, 99, 104, 97, 110, 40, 65, 41, 47, 47] =
      .ok true ∧
    ((interior [47, 47, 99, 104, 97, 110, 40, 65, 41, 47, 47]).filter
      (fun c => decide (c ≠ 10 ∧ c ≠ 13))).length % 4 = 1 ∧
    ∃ off, netjsonDecoder sampleType sampleDecodeState
        [47, 47, 99, 104, 97, 110, 40, 65, 41, 47, 47] [7] =
      .ok { d := { sampleDecodeState with savedError := [.CorruptInputError off] },
            v := [7], calls := [.base64Decode [65]] } :=
  ⟨rfl, rfl, netjsonDecoder_invalid_interior sampleType sampleDecodeState _ [7] rfl
    (Or.inr rfl)⟩

/-- C10. Atomicity on base64 failure: when `netjsonIsEncoded` accepts `s` and
decoding the interior into the buffer of `DecodedLen` bytes returns the error
`CorruptInputError(off)`, `netjsonDecoder` saves exactly that error, does not
call the Decoder (its only call is the base64 decoding) and leaves the
destination as it was. -/
theorem netjsonDecoder_base64_error {V T E : Type} (typeOf : V → T)
    (d : decodeState V T E) (s : List Byte) (v : V)
    (buf : List Byte) (n : Nat) (off : Int)
    (h : netjsonIsEncoded d s = .ok true)
    (hD : base64.Decode (make (base64.DecodedLen (interior s).length)) (interior s) =
      .ok (buf, n, some off)) :
    netjsonDecoder typeOf d s v =
      .ok { d := { d with savedError := d.savedError ++ [.CorruptInputError off] },
            v := v, calls := [.base64Decode (interior s)] } := by
  obtain ⟨dec, _, _, hrun⟩ := netjsonDecoder_accept typeOf d s v h
  rw [hrun, hD]
  rfl

/-- Witness of C10: the token `//chan(=)//`, whose interior is a padding byte. -/
theorem netjsonDecoder_base64_error_witness :
    netjsonIsEncoded sampleDecodeState [47, 47, 99, 104, 97, 110, 40, 61, 41, 47, 47] =
      .ok true ∧
    base64.Decode (make (base64.DecodedLen
        (interior [47, 47, 99, 104, 97, 110, 40, 61, 41, 47, 47]).length))
      (interior [47, 47, 99, 104, 97, 110, 40, 61, 41, 47, 47]) = .ok ([], 0, some 0) ∧
    netjsonDecoder sampleType sampleDecodeState
        [47, 47, 99, 104, 97, 110, 40, 61, 41, 47, 47] [7] =
      .ok { d := { sampleDecodeState with savedError := [.CorruptInputError 0] },
            v := [7], calls := [.base64Decode [61]] } :=
  ⟨rfl, rfl, netjsonDecoder_base64_error sampleType sampleDecodeState _ [7] [] 0 0 rfl rfl⟩

/-! ## The two examples, the decode buffer and the shape of a token -/

theorem netjsonDecoder_text {V T E : Type} (typeOf : V → T) (d : decodeState V T E)
    (dec : NetjsonDecoder V E) (dest : V) (P : List Byte) (hD : d.netjsonDec = some dec) :
    netjsonDecoder typeOf d (netjsonChanPrefix ++ text P ++ netjsonChanSuffix) dest =
      .ok { d := match (dec.NetjsonDecode dest P).2 with
                 | some err => { d with savedError := d.savedError ++ [.capability err] }
                 | none => d,
            v := (dec.NetjsonDecode dest P).1,
            calls := [.base64Decode (text P), .NetjsonDecode P] } := by
  have hacc := netjsonIsEncoded_token d (text P) (by rw [hD]; rfl)
  obtain ⟨dec', hd', -, hrun⟩ := netjsonDecoder_accept typeOf d _ dest hacc
  rw [hD] at hd'
  cases hd'
  rw [hrun, interior_token, Decode_text P _ (by simp [make])]
  have hs : sliceOf P 0 (P.length : Int) = .ok P := by
    have := sliceOf_ok P 0 P.length (Nat.zero_le _) (Nat.le_refl _)
    simpa using this
  simp only [hs]
  rfl

theorem text_two_bytes : text [255, 0] = [95, 119, 65] := by decide

theorem text_empty : text [] = [] := by decide

theorem bytesOf_length : ∀ l : List Nat, l.length % 4 ≠ 1 →
    (bytesOf l).length = DecodedLen l.length
  | d0 :: d1 :: d2 :: d3 :: rest, h => by
      have ih := bytesOf_length rest (by
        simp only [List.length_cons] at h
        omega)
      simp only [bytesOf, List.length_cons, ih, DecodedLen]
      omega
  | [d0, d1, d2], _ => by simp [bytesOf, DecodedLen]
  | [d0, d1], _ => by simp [bytesOf, DecodedLen]
  | [d0], h => by simp at h
  | [], _ => by simp [bytesOf, DecodedLen]

theorem Decode_prefix_ok (x buf : List Byte) (n : Nat) (err : Option Int)
    (hD : Decode (make (DecodedLen x.length)) x = .ok (buf, n, err)) :
    buf.length = DecodedLen x.length ∧ n ≤ DecodedLen x.length ∧
      sliceOf buf 0 (n : Int) = .ok (buf.take n) := by
  obtain ⟨dst', n', err', hrun, hl, hn, -, -⟩ :=
    Decode_spec (make (DecodedLen x.length)) x (by simp [make])
  rw [hD] at hrun
  simp only [Except.ok.injEq, Prod.mk.injEq] at hrun
  obtain ⟨rfl, rfl, rfl⟩ := hrun
  have hl' : buf.length = DecodedLen x.length := by simpa [make] using hl
  refine ⟨hl', hn, ?_⟩
  have := sliceOf_ok buf 0 n (Nat.zero_le _) (by omega)
  simpa using this

theorem accepted_split {V T E : Type} (d : decodeState V T E) (s : List Byte)
    (h : netjsonIsEncoded d s = .ok true) :
    10 ≤ s.length ∧ s = netjsonChanPrefix ++ interior s ++ netjsonChanSuffix := by
  rw [netjsonIsEncoded_eq] at h
  simp only [Except.ok.injEq, decide_eq_true_eq] at h
  obtain ⟨_, h7, hp, hs⟩ := h
  have h10 := accepted_length s h7 hp hs
  refine ⟨h10, ?_⟩
  have e1 : s = s.take (s.length - 3) ++ netjsonChanSuffix := by
    conv_lhs => rw [← List.take_append_drop (s.length - 3) s, hs]
  have e2 : s.take (s.length - 3) = netjsonChanPrefix ++ interior s := by
    unfold interior
    conv_lhs => rw [← List.take_append_drop 7 (s.take (s.length - 3))]
    rw [List.take_take, Nat.min_eq_left (by omega), hp]
  rw [← e2]
  exact e1

theorem solidus_cons_ne (c : Byte) (l : List Byte) (hc : c ≠ 92)
    (hl : ∀ i : Nat, l[i]? = some 92 → l[i + 1]? = some 47) :
    ∀ i : Nat, (c :: l)[i]? = some 92 → (c :: l)[i + 1]? = some 47 := by
  intro i hi
  cases i with
  | zero =>
    simp only [List.getElem?_cons_zero, Option.some.injEq] at hi
    exact absurd hi hc
  | succ k =>
    simp only [List.getElem?_cons_succ] at hi ⊢
    exact hl k hi

theorem solidus_cons_escape (l : List Byte)
    (hl : ∀ i : Nat, l[i]? = some 92 → l[i + 1]? = some 47) :
    ∀ i : Nat, ((92 : Byte) :: 47 :: l)[i]? = some 92 →
      ((92 : Byte) :: 47 :: l)[i + 1]? = some 47 := by
  intro i hi
  cases i with
  | zero => simp
  | succ k =>
    rw [List.getElem?_cons_succ] at hi ⊢
    exact solidus_cons_ne 47 l (by decide) hl k hi

theorem solidus_append_suffix : ∀ x : List Byte, (92 : Byte) ∉ x →
    ∀ i : Nat, (x ++ netjsonChanQSuffix)[i]? = some 92 →
      (x ++ netjsonChanQSuffix)[i + 1]? = some 47
  | [], _ => by
      show ∀ i : Nat, ((41 : Byte) :: 92 :: 47 :: [47, 34])[i]? = some 92 → _
      apply solidus_cons_ne 41 _ (by decide)
      apply solidus_cons_escape
      apply solidus_cons_ne 47 _ (by decide)
      apply solidus_cons_ne 34 _ (by decide)
      intro i hi
      simp at hi
  | c :: x, h => by
      have hc : c ≠ 92 := fun hc => h (hc ▸ List.mem_cons_self _ _)
      have hx : (92 : Byte) ∉ x := fun hx => h (List.mem_cons_of_mem _ hx)
      exact solidus_cons_ne c _ hc (solidus_append_suffix x hx)

theorem isAlphabet_plain (c : Byte) (h : isAlphabet c) :
    0x20 ≤ c.val ∧ c ≠ 32 ∧ c ≠ 9 ∧ c ≠ 10 ∧ c ≠ 13 ∧ c.val < 0x80 ∧
      c ≠ 60 ∧ c ≠ 62 ∧ c ≠ 38 ∧ c ≠ 34 ∧ c ≠ 92 := by
  have hne : ∀ k : Byte, ¬ isAlphabet k → c ≠ k := fun k hk hck => hk (hck ▸ h)
  refine ⟨?_, hne _ (by decide), hne _ (by decide), hne _ (by decide), hne _ (by decide), ?_,
    hne _ (by decide), hne _ (by decide), hne _ (by decide), hne _ (by decide),
    hne _ (by decide)⟩
  · unfold isAlphabet at h
    omega
  · unfold isAlphabet at h
    omega

/-! ## Claims about the two examples -/

/-- C11. Two-byte example: when the Encoder returns the payload `[0xFF, 0x00]`,
the token that `netjsonEncoder` builds and hands to `compact` is exactly the
17 bytes `"\//chan(_wA)\//"`; and under any configured Decoder the unquoted
content `//chan(_wA)//` is accepted and `netjsonDecoder` calls the Decoder once,
with exactly the bytes `[0xFF, 0x00]`. -/
theorem netjson_two_bytes {V T E : Type} (typeOf : V → T)
    (compact : List Byte → List Byte → Bool → List Byte × Option E)
    (e : encodeState V E) (v : V) (opts : encOpts) (enc : NetjsonEncoder V E)
    (d : decodeState V T E) (dec : NetjsonDecoder V E) (dest : V)
    (hE : e.netjsonEnc = some enc) (hP : enc.NetjsonEncode v = .ok [255, 0])
    (hD : d.netjsonDec = some dec) :
    (∃ r, netjsonEncoder typeOf compact e v opts = .ok r ∧
      r.compacted = [([34, 92, 47, 47, 99, 104, 97, 110, 40, 95, 119, 65, 41, 92, 47, 47, 34],
        opts.escapeHTML)]) ∧
    ([34, 92, 47, 47, 99, 104, 97, 110, 40, 95, 119, 65, 41, 92, 47, 47, 34] :
      List Byte).length = 17 ∧
    netjsonIsEncoded d [47, 47, 99, 104, 97, 110, 40, 95, 119, 65, 41, 47, 47] = .ok true ∧
    netjsonDecoder typeOf d [47, 47, 99, 104, 97, 110, 40, 95, 119, 65, 41, 47, 47] dest =
      .ok { d := match (dec.NetjsonDecode dest [255, 0]).2 with
                 | some err => { d with savedError := d.savedError ++ [.capability err] }
                 | none => d,
            v := (dec.NetjsonDecode dest [255, 0]).1,
            calls := [.base64Decode [95, 119, 65], .NetjsonDecode [255, 0]] } := by
  refine ⟨⟨_, netjsonEncoder_ok typeOf compact e v opts enc _ hE hP, ?_⟩, rfl, ?_, ?_⟩
  · rw [text_two_bytes]
    rfl
  · have := netjsonIsEncoded_token d [95, 119, 65] (by rw [hD]; rfl)
    exact this
  · have := netjsonDecoder_text typeOf d dec dest [255, 0] hD
    rw [text_two_bytes] at this
    exact this

/-- Witness of C11: the sample capabilities, the Encoder given the value `[255, 0]`. -/
theorem netjson_two_bytes_witness :
    sampleEncodeState.netjsonEnc = some sampleEncoder ∧
    sampleEncoder.NetjsonEncode [255, 0] = .ok [255, 0] ∧
    sampleDecodeState.netjsonDec = some sampleDecoder ∧
    (∃ r, netjsonEncoder sampleType sampleCompact sampleEncodeState [255, 0] ⟨true⟩ = .ok r ∧
      r.compacted = [([34, 92, 47, 47, 99, 104, 97, 110, 40, 95, 119, 65, 41, 92, 47, 47, 34], true)]) ∧
    ([34, 92, 47, 47, 99, 104, 97, 110, 40, 95, 119, 65, 41, 92, 47, 47, 34] : List Byte).length = 17 ∧
    netjsonIsEncoded sampleDecodeState [47, 47, 99, 104, 97, 110, 40, 95, 119, 65, 41, 47, 47] = .ok true ∧
    netjsonDecoder sampleType sampleDecodeState [47, 47, 99, 104, 97, 110, 40, 95, 119, 65, 41, 47, 47] [7] =
      .ok { d := sampleDecodeState, v := [255, 0],
            calls := [.base64Decode [95, 119, 65], .NetjsonDecode [255, 0]] } :=
  ⟨rfl, rfl, rfl, netjson_two_bytes sampleType sampleCompact sampleEncodeState [255, 0] ⟨true⟩
    sampleEncoder sampleDecodeState sampleDecoder [7] rfl rfl rfl⟩

/-- C12 as stated fails: a Decoder is configured and `//chan()//` is accepted,
yet an error is saved, the one that this Decoder returns for the empty payload
it is given. -/
theorem netjsonDecoder_empty_payload_refused :
    strictDecodeState.netjsonDec = some strictDecoder ∧
    netjsonIsEncoded strictDecodeState [47, 47, 99, 104, 97, 110, 40, 41, 47, 47] = .ok true ∧
    netjsonDecoder sampleType strictDecodeState [47, 47, 99, 104, 97, 110, 40, 41, 47, 47] [7] =
      .ok { d := { strictDecodeState with savedError := [.capability 0] }, v := [7],
            calls := [.base64Decode [], .NetjsonDecode []] } :=
  ⟨rfl, rfl, rfl⟩

/-- C12, amended. Empty-payload example: when the Encoder returns the empty
payload, the token that `netjsonEncoder` builds and hands to `compact` is
exactly the 14 bytes `"\//chan()\//"`; and under any configured Decoder the
unquoted content `//chan()//` is accepted by detection and `netjsonDecoder`
calls the Decoder once, with an empty payload, saving no error of its own:
an error is saved only when that call returns one, and then it is that error. -/
theorem netjson_empty_payload {V T E : Type} (typeOf : V → T)
    (compact : List Byte → List Byte → Bool → List Byte × Option E)
    (e : encodeState V E) (v : V) (opts : encOpts) (enc : NetjsonEncoder V E)
    (d : decodeState V T E) (dec : NetjsonDecoder V E) (dest : V)
    (hE : e.netjsonEnc = some enc) (hP : enc.NetjsonEncode v = .ok [])
    (hD : d.netjsonDec = some dec) :
    (∃ r, netjsonEncoder typeOf compact e v opts = .ok r ∧
      r.compacted = [([34, 92, 47, 47, 99, 104, 97, 110, 40, 41, 92, 47, 47, 34],
        opts.escapeHTML)]) ∧
    ([34, 92, 47, 47, 99, 104, 97, 110, 40, 41, 92, 47, 47, 34] :
      List Byte).length = 14 ∧
    netjsonIsEncoded d [47, 47, 99, 104, 97, 110, 40, 41, 47, 47] = .ok true ∧
    netjsonDecoder typeOf d [47, 47, 99, 104, 97, 110, 40, 41, 47, 47] dest =
      .ok { d := match (dec.NetjsonDecode dest []).2 with
                 | some err => { d with savedError := d.savedError ++ [.capability err] }
                 | none => d,
            v := (dec.NetjsonDecode dest []).1,
            calls := [.base64Decode [], .NetjsonDecode []] } := by
  refine ⟨⟨_, netjsonEncoder_ok typeOf compact e v opts enc _ hE hP, ?_⟩, rfl, ?_, ?_⟩
  · rw [text_empty]
    rfl
  · have := netjsonIsEncoded_token d [] (by rw [hD]; rfl)
    exact this
  · have := netjsonDecoder_text typeOf d dec dest [] hD
    rw [text_empty] at this
    exact this

/-- Witness of the amended C12: the sample capabilities, the Encoder given the
empty value. -/
theorem netjson_empty_payload_witness :
    sampleEncodeState.netjsonEnc = some sampleEncoder ∧
    sampleEncoder.NetjsonEncode [] = .ok [] ∧
    sampleDecodeState.netjsonDec = some sampleDecoder ∧
    (∃ r, netjsonEncoder sampleType sampleCompact sampleEncodeState [] ⟨true⟩ = .ok r ∧
      r.compacted = [([34, 92, 47, 47, 99, 104, 97, 110, 40, 41, 92, 47, 47, 34], true)]) ∧
    ([34, 92, 47, 47, 99, 104, 97, 110, 40, 41, 92, 47, 47, 34] : List Byte).length = 14 ∧
    netjsonIsEncoded sampleDecodeState [47, 47, 99, 104, 97, 110, 40, 41, 47, 47] = .ok true ∧
    netjsonDecoder sampleType sampleDecodeState [47, 47, 99, 104, 97, 110, 40, 41, 47, 47] [7] =
      .ok { d := sampleDecodeState, v := [],
            calls := [.base64Decode [], .NetjsonDecode []] } :=
  ⟨rfl, rfl, rfl, netjson_empty_payload sampleType sampleCompact sampleEncodeState [] ⟨true⟩
    sampleEncoder sampleDecodeState sampleDecoder [7] rfl rfl rfl⟩

/-! ## Claims about the decoded payload and the slices of `netjsonDecoder` -/

/-- C13. Decoder capability error is recorded as is: when `netjsonIsEncoded`
accepts `s` and decoding the interior into the buffer of `DecodedLen` bytes
succeeds with count `n`, `netjsonDecoder` calls the Decoder exactly once, with
the destination and the payload `buf[:n]`; the destination holds what the
Decoder left there; if the call returns an error, exactly that error is saved,
and if it returns none, nothing is saved. -/
theorem netjsonDecoder_capability_error {V T E : Type} (typeOf : V → T)
    (d : decodeState V T E) (s : List Byte) (v : V) (dec : NetjsonDecoder V E)
    (buf : List Byte) (n : Nat)
    (h : netjsonIsEncoded d s = .ok true) (hd : d.netjsonDec = some dec)
    (hD : base64.Decode (make (base64.DecodedLen (interior s).length)) (interior s) =
      .ok (buf, n, none)) :
    netjsonDecoder typeOf d s v =
      .ok { d := match (dec.NetjsonDecode v (buf.take n)).2 with
                 | some err => { d with savedError := d.savedError ++ [.capability err] }
                 | none => d,
            v := (dec.NetjsonDecode v (buf.take n)).1,
            calls := [.base64Decode (interior s), .NetjsonDecode (buf.take n)] } := by
  obtain ⟨dec', hd', -, hrun⟩ := netjsonDecoder_accept typeOf d s v h
  rw [hd] at hd'
  cases hd'
  obtain ⟨-, -, hs⟩ := Decode_prefix_ok _ buf n none hD
  rw [hrun, hD]
  simp only [hs]
  rfl

/-- Witness of C13: the token `//chan(AAAAAAAA)//` decodes to six zero bytes,
which the sample Decoder stores and reports with the error `6`. -/
theorem netjsonDecoder_capability_error_witness :
    netjsonIsEncoded sampleDecodeState [47, 47, 99, 104, 97, 110, 40, 65, 65, 65, 65, 65, 65, 65, 65, 41, 47, 47] = .ok true ∧
    sampleDecodeState.netjsonDec = some sampleDecoder ∧
    base64.Decode (make (base64.DecodedLen (interior [47, 47, 99, 104, 97, 110, 40, 65, 65, 65, 65, 65, 65, 65, 65, 41, 47, 47]).length))
      (interior [47, 47, 99, 104, 97, 110, 40, 65, 65, 65, 65, 65, 65, 65, 65, 41, 47, 47]) = .ok ([0, 0, 0, 0, 0, 0], 6, none) ∧
    netjsonDecoder sampleType sampleDecodeState [47, 47, 99, 104, 97, 110, 40, 65, 65, 65, 65, 65, 65, 65, 65, 41, 47, 47] [7] =
      .ok { d := { sampleDecodeState with savedError := [.capability 6] },
            v := [0, 0, 0, 0, 0, 0],
            calls := [.base64Decode [65, 65, 65, 65, 65, 65, 65, 65],
              .NetjsonDecode [0, 0, 0, 0, 0, 0]] } :=
  ⟨rfl, rfl, rfl, netjsonDecoder_capability_error sampleType sampleDecodeState _ [7]
    sampleDecoder [0, 0, 0, 0, 0, 0] 6 rfl rfl rfl⟩

/-- C14. Decode buffer bound: for every text `x`, `Decode` of `x` into a buffer
of `DecodedLen(len x)` bytes returns, with a count `n <= DecodedLen(len x)`, so
the slice `buf[:n]` is in range; and when every byte of `x` is in the alphabet
`A-Z a-z 0-9 - _` and no error is returned, `n = DecodedLen(len x)`. -/
theorem Decode_buffer_bound (x : List Byte) :
    ∃ buf n err, base64.Decode (make (base64.DecodedLen x.length)) x = .ok (buf, n, err) ∧
      buf.length = base64.DecodedLen x.length ∧ n ≤ base64.DecodedLen x.length ∧
      sliceOf buf 0 (n : Int) = .ok (buf.take n) ∧
      ((∀ c ∈ x, isAlphabet c) → err = none → n = base64.DecodedLen x.length) := by
  obtain ⟨buf, n, err, hrun, -, -, hc, hd⟩ :=
    Decode_spec (make (DecodedLen x.length)) x (by simp [make])
  obtain ⟨hl, hn, hs⟩ := Decode_prefix_ok x buf n err hrun
  refine ⟨buf, n, err, hrun, hl, hn, hs, ?_⟩
  intro hall he
  have hnc : ¬ corrupt x := fun hx => (hc.mpr hx) he
  have hf : x.filter valid = x :=
    List.filter_eq_self.mpr (fun c hc' => (valid_iff_isAlphabet c).mpr (hall c hc'))
  have hlen : (sextets x).length = x.length := by rw [sextets_length, hf]
  have hmod : (sextets x).length % 4 ≠ 1 := by
    rw [hlen]
    intro h1
    apply hnc
    right
    rw [hf]
    exact h1
  rw [(hd he).2]
  unfold decoded
  rw [bytesOf_length _ hmod, hlen]

/-- Witness of C14: the text `_wA`, three alphabet bytes, decodes without error
into the two bytes of its buffer. -/
theorem Decode_buffer_bound_witness :
    (∀ c ∈ ([95, 119, 65] : List Byte), isAlphabet c) ∧
    base64.Decode (make (base64.DecodedLen ([95, 119, 65] : List Byte).length))
      [95, 119, 65] = .ok ([255, 0], 2, none) ∧
    ∃ buf n err, base64.Decode (make (base64.DecodedLen ([95, 119, 65] : List Byte).length))
        [95, 119, 65] = .ok (buf, n, err) ∧
      buf.length = base64.DecodedLen ([95, 119, 65] : List Byte).length ∧
      n ≤ base64.DecodedLen ([95, 119, 65] : List Byte).length ∧
      sliceOf buf 0 (n : Int) = .ok (buf.take n) ∧
      ((∀ c ∈ ([95, 119, 65] : List Byte), isAlphabet c) → err = none →
        n = base64.DecodedLen ([95, 119, 65] : List Byte).length) :=
  ⟨by
      intro c hc
      simp only [List.mem_cons, List.mem_singleton, List.not_mem_nil, or_false] at hc
      rcases hc with rfl | rfl | rfl <;> decide,
    rfl, Decode_buffer_bound [95, 119, 65]⟩

/-- C15. Stripping is safe: every `s` that `netjsonIsEncoded` accepts has at
least 10 bytes, so in the slice `s[7 : len(s)-3]` the lower bound is at most the
upper bound and the slice expression does not fail; and `s` is `//chan(`, then
that slice, then `)//`. -/
theorem netjsonDecoder_strip_safe {V T E : Type} (d : decodeState V T E) (s : List Byte)
    (h : netjsonIsEncoded d s = .ok true) :
    10 ≤ s.length ∧
    (7 : Int) ≤ (s.length : Int) - 3 ∧
    sliceOf s (netjsonChanPrefix.length : Nat) ((s.length : Int) - (netjsonChanSuffix.length : Nat))
      = .ok (interior s) ∧
    s = netjsonChanPrefix ++ interior s ++ netjsonChanSuffix := by
  obtain ⟨h10, hsplit⟩ := accepted_split d s h
  refine ⟨h10, by omega, ?_, hsplit⟩
  have := sliceOf_ok s 7 (s.length - 3) (by omega) (by omega)
  have e : (((s.length - 3 : Nat)) : Int) = (s.length : Int) - (3 : Nat) := by omega
  rw [e] at this
  simpa [netjsonChanSuffix, netjsonChanPrefix, interior] using this

/-- Witness of C15: the shortest accepted string, `//chan()//`. -/
theorem netjsonDecoder_strip_safe_witness :
    netjsonIsEncoded sampleDecodeState [47, 47, 99, 104, 97, 110, 40, 41, 47, 47] = .ok true ∧
    10 ≤ ([47, 47, 99, 104, 97, 110, 40, 41, 47, 47] : List Byte).length ∧
    (7 : Int) ≤ ((([47, 47, 99, 104, 97, 110, 40, 41, 47, 47] : List Byte).length : Nat) : Int) - 3 ∧
    sliceOf [47, 47, 99, 104, 97, 110, 40, 41, 47, 47] (netjsonChanPrefix.length : Nat)
      (((([47, 47, 99, 104, 97, 110, 40, 41, 47, 47] : List Byte).length : Nat) : Int) - (netjsonChanSuffix.length : Nat))
      = .ok (interior [47, 47, 99, 104, 97, 110, 40, 41, 47, 47]) ∧
    ([47, 47, 99, 104, 97, 110, 40, 41, 47, 47] : List Byte) =
      netjsonChanPrefix ++ interior [47, 47, 99, 104, 97, 110, 40, 41, 47, 47] ++ netjsonChanSuffix :=
  ⟨rfl, netjsonDecoder_strip_safe sampleDecodeState [47, 47, 99, 104, 97, 110, 40, 41, 47, 47] rfl⟩

/-! ## Claim about the bytes of a token -/

/-- C16. The token needs no escaping: when the Encoder returns a payload, the
token handed to `compact` is the same for every `encOpts`, so for `escapeHTML`
true and false; it begins and ends with `"` and holds no other `"`; it holds
exactly two backslashes, each followed at once by `/`; and each of its bytes is
at least `0x20`, is not a space, tab, line feed or carriage return, is below
`0x80` and is none of `<`, `>`, `&`. -/
theorem netjsonEncoder_token_plain {V T E : Type} (typeOf : V → T)
    (compact : List Byte → List Byte → Bool → List Byte × Option E)
    (e : encodeState V E) (v : V) (enc : NetjsonEncoder V E) (P : List Byte)
    (hE : e.netjsonEnc = some enc) (hP : enc.NetjsonEncode v = .ok P) :
    ∃ tok : List Byte,
      (∀ opts : encOpts, ∃ r, netjsonEncoder typeOf compact e v opts = .ok r ∧
        r.compacted = [(tok, opts.escapeHTML)]) ∧
      tok.head? = some 34 ∧ tok.getLast? = some 34 ∧ tok.count 34 = 2 ∧
      tok.count 92 = 2 ∧ (∀ i : Nat, tok[i]? = some 92 → tok[i + 1]? = some 47) ∧
      (∀ c ∈ tok, 0x20 ≤ c.val ∧ c ≠ 32 ∧ c ≠ 9 ∧ c ≠ 10 ∧ c ≠ 13 ∧ c.val < 0x80 ∧
        c ≠ 60 ∧ c ≠ 62 ∧ c ≠ 38) := by
  have h34 : (34 : Byte) ∉ text P := fun h =>
    (isAlphabet_plain 34 (isAlphabet_of_mem_text P 34 h)).2.2.2.2.2.2.2.2.2.1 rfl
  have h92 : (92 : Byte) ∉ text P := fun h =>
    (isAlphabet_plain 92 (isAlphabet_of_mem_text P 92 h)).2.2.2.2.2.2.2.2.2.2 rfl
  refine ⟨netjsonChanQPrefix ++ text P ++ netjsonChanQSuffix,
    fun opts => ⟨_, netjsonEncoder_ok typeOf compact e v opts enc P hE hP, rfl⟩,
    ?_, ?_, ?_, ?_, ?_, ?_⟩
  · simp [netjsonChanQPrefix]
  · simp [netjsonChanQSuffix]
  · rw [List.count_append, List.count_append, List.count_eq_zero.mpr h34]
    decide
  · rw [List.count_append, List.count_append, List.count_eq_zero.mpr h92]
    decide
  · rw [List.append_assoc]
    show ∀ i : Nat, ((34 : Byte) :: 92 :: 47 :: ([47, 99, 104, 97, 110, 40] ++
      (text P ++ netjsonChanQSuffix)))[i]? = some 92 → _
    apply solidus_cons_ne 34 _ (by decide)
    apply solidus_cons_escape
    show ∀ i : Nat, ((47 : Byte) :: 99 :: 104 :: 97 :: 110 :: 40 ::
      (text P ++ netjsonChanQSuffix))[i]? = some 92 → _
    apply solidus_cons_ne 47 _ (by decide)
    apply solidus_cons_ne 99 _ (by decide)
    apply solidus_cons_ne 104 _ (by decide)
    apply solidus_cons_ne 97 _ (by decide)
    apply solidus_cons_ne 110 _ (by decide)
    apply solidus_cons_ne 40 _ (by decide)
    exact solidus_append_suffix (text P) h92
  · intro c hc
    rw [List.mem_append, List.mem_append] at hc
    rcases hc with (hc | hc) | hc
    · simp only [netjsonChanQPrefix, List.mem_cons, List.mem_singleton, List.not_mem_nil,
        or_false] at hc
      rcases hc with rfl | rfl | rfl | rfl | rfl | rfl | rfl | rfl | rfl <;> decide
    · obtain ⟨a, b, c1, c2, c3, c4, c5, c6, c7, _, _⟩ :=
        isAlphabet_plain c (isAlphabet_of_mem_text P c hc)
      exact ⟨a, b, c1, c2, c3, c4, c5, c6, c7⟩
    · simp only [netjsonChanQSuffix, List.mem_cons, List.mem_singleton, List.not_mem_nil,
        or_false] at hc
      rcases hc with rfl | rfl | rfl | rfl | rfl <;> decide

/-- Witness of C16: the token of the payload `[255, 0]`. -/
theorem netjsonEncoder_token_plain_witness :
    sampleEncodeState.netjsonEnc = some sampleEncoder ∧
    sampleEncoder.NetjsonEncode [255, 0] = .ok [255, 0] ∧
    ∃ tok : List Byte,
      (∀ opts : encOpts, ∃ r,
        netjsonEncoder sampleType sampleCompact sampleEncodeState [255, 0] opts = .ok r ∧
        r.compacted = [(tok, opts.escapeHTML)]) ∧
      tok.head? = some 34 ∧ tok.getLast? = some 34 ∧ tok.count 34 = 2 ∧
      tok.count 92 = 2 ∧ (∀ i : Nat, tok[i]? = some 92 → tok[i + 1]? = some 47) ∧
      (∀ c ∈ tok, 0x20 ≤ c.val ∧ c ≠ 32 ∧ c ≠ 9 ∧ c ≠ 10 ∧ c ≠ 13 ∧ c.val < 0x80 ∧
        c ≠ 60 ∧ c ≠ 62 ∧ c ≠ 38) :=
  ⟨rfl, rfl, netjsonEncoder_token_plain sampleType sampleCompact sampleEncodeState [255, 0]
    sampleEncoder [255, 0] rfl rfl⟩

end Netjson
